import Mathlib

/-!
# file-io: sequential text-file reading and writing

A shallow embedding of the two programs of the repository,
`file-input.cpp` (the Reader) and `file-output.cpp` (the Writer), together
with the part of the C++ stream library they rely on:

* an input stream is a byte sequence, a cursor and the two state flags
  `eofbit` and `failbit`;
* formatted extraction (`>>` into a string or an `int`), `getline`, `get`,
  `clear` and `seekg` follow the behaviour the C++ standard prescribes
  for the classic locale and the default format flags (`skipws`, `dec`);
* an output stream buffers what is inserted; `std::endl` and `close()` write
  the buffer to the file, which may refuse the bytes, and the Writer never
  tests the stream after writing;
* the three `while (!infile.eof())` loops are step-indexed: `none` means
  the step budget ran out, and the theorems show that a budget larger than
  the file length always suffices.
-/

namespace FileIO

/-! ## Characters and numerals -/

/-- The classic-locale `isspace`: space, `\t`, `\n`, `\v`, `\f`, `\r`. -/
def isspace (c : Char) : Bool :=
  c = ' ' || c = '\t' || c = '\n' || c = '\x0b' || c = '\x0c' || c = '\r'

/-- The classic-locale `isdigit`. -/
def isdigit (c : Char) : Bool :=
  decide (48 ≤ c.toNat) && decide (c.toNat ≤ 57)

/-- Numeric value of a decimal digit character. -/
def digitVal (c : Char) : Nat := c.toNat - 48

/-- The character of a decimal digit. -/
def digitChar (d : Nat) : Char := Char.ofNat (48 + d)

/-- Value of a run of decimal digits, most significant first. -/
def digitsVal (ds : List Char) : Nat :=
  ds.foldl (fun acc c => 10 * acc + digitVal c) 0

/-- Decimal digits of a natural number, most significant first; the first
argument bounds the number of digits produced. -/
def natDigits : Nat → Nat → List Char
  | 0, _ => []
  | fuel + 1, n =>
    if n < 10 then [digitChar n] else natDigits fuel (n / 10) ++ [digitChar (n % 10)]

/-- What `operator<<` prints for an unsigned magnitude (`dec`). -/
def natToChars (n : Nat) : List Char := natDigits (n + 1) n

/-- What `operator<<` prints for an `int` with the default flags
(`dec`, no `showpos`): a minus sign for negative values, then the digits. -/
def intToChars (i : Int) : List Char :=
  if i < 0 then '-' :: natToChars i.natAbs else natToChars i.natAbs

/-- Largest value of a 32-bit `int`. -/
def INT_MAX : Int := 2147483647

/-- Smallest value of a 32-bit `int`. -/
def INT_MIN : Int := -2147483648

/-! ## The record -/

/-- The `struct person` declared by both programs. -/
structure person where
  first_name : List Char
  last_name : List Char
  job : List Char
  age : Int
deriving DecidableEq

/-! ## Input streams -/

/-- State of a `std::ifstream` over a regular file: the file's bytes, the
get cursor and the state flags. -/
structure ifstream where
  data : List Char
  pos : Nat
  eofbit : Bool
  failbit : Bool
deriving DecidableEq

namespace ifstream

/-- The bytes from the cursor to the end of the file. -/
def rest (s : ifstream) : List Char := s.data.drop s.pos

/-- Result of `open` on a file that exists and is readable. -/
def opened (content : List Char) : ifstream :=
  { data := content, pos := 0, eofbit := false, failbit := false }

/-- Method `good()`: no state flag is set. -/
def good (s : ifstream) : Bool := !s.eofbit && !s.failbit

/-- Method `fail()`. -/
def fail (s : ifstream) : Bool := s.failbit

/-- Method `eof()`. -/
def eof (s : ifstream) : Bool := s.eofbit

/-- Method `clear()`: resets every state flag. -/
def clear (s : ifstream) : ifstream :=
  { s with eofbit := false, failbit := false }

/-- Method `seekg(off)`: clears `eofbit`, and moves the cursor unless the
stream has failed. -/
def seekg (s : ifstream) (off : Nat) : ifstream :=
  if s.failbit then { s with eofbit := false }
  else { s with eofbit := false, pos := off }

/-- Member `setstate`: the given flags are added to the ones already set. -/
def setstate (s : ifstream) (eof fail : Bool) : ifstream :=
  { s with eofbit := s.eofbit || eof, failbit := s.failbit || fail }

/-- The cursor after `k` more characters have been extracted. -/
def advance (s : ifstream) (k : Nat) : ifstream :=
  { s with pos := s.pos + k }

/-- The `sentry` every input function constructs first.  A stream that is
not `good()` gets `failbit`; otherwise, unless `noskipws`, leading white
space is skipped, and reaching the end of the file while skipping sets
`eofbit` and `failbit`. -/
def sentry (s : ifstream) (noskipws : Bool) : ifstream × Bool :=
  if !s.good then (s.setstate false true, false)
  else if noskipws then (s, true)
  else
    let s1 := s.advance (s.rest.takeWhile isspace).length
    if (s.rest.dropWhile isspace).isEmpty then (s1.setstate true true, false)
    else (s1, true)

/-- Formatted extraction `s >> v` into a `std::string`.  When the sentry
fails `v` keeps its value; otherwise `v` is erased and receives the
characters up to the next white space or the end of the file; reaching the
end sets `eofbit`, extracting nothing sets `failbit`. -/
def extractString (s : ifstream) (v : List Char) : ifstream × List Char :=
  match s.sentry false with
  | (s1, false) => (s1, v)
  | (s1, true) =>
    let tok := s1.rest.takeWhile (fun c => !isspace c)
    let hitEnd := (s1.rest.dropWhile (fun c => !isspace c)).isEmpty
    ((s1.advance tok.length).setstate hitEnd tok.isEmpty, tok)

/-- What `num_get` makes of the characters at the cursor when an `int` is
read: how many it consumes, whether it ran into the end of the file,
whether the conversion failed, and the value it stores. -/
structure NumField where
  consumed : Nat
  hitEnd : Bool
  failed : Bool
  value : Int
deriving DecidableEq

/-- Reading an `int` with `dec`: an optional sign and the decimal digits
after it are consumed.  Without any digit the conversion fails and `0` is
stored; a value outside the range of `int` fails and stores the nearest
bound. -/
def numGet (r : List Char) : NumField :=
  let signLen := if r.head? = some '-' ∨ r.head? = some '+' then 1 else 0
  let body := r.drop signLen
  let digs := body.takeWhile isdigit
  let val : Int := if r.head? = some '-' then -(digitsVal digs : Int) else (digitsVal digs : Int)
  { consumed := signLen + digs.length
    hitEnd := (body.dropWhile isdigit).isEmpty
    failed := digs.isEmpty || decide (INT_MAX < val) || decide (val < INT_MIN)
    value :=
      if digs.isEmpty then 0
      else if INT_MAX < val then INT_MAX
      else if val < INT_MIN then INT_MIN
      else val }

/-- Formatted extraction `s >> v` into an `int`; `v` keeps its value when
the sentry fails. -/
def extractInt (s : ifstream) (v : Int) : ifstream × Int :=
  match s.sentry false with
  | (s1, false) => (s1, v)
  | (s1, true) =>
    let f := numGet s1.rest
    ((s1.advance f.consumed).setstate f.hitEnd f.failed, f.value)

/-- Function `getline(s, v)`.  When the sentry fails `v` keeps its value;
otherwise `v` is erased and characters are extracted up to and including
the next newline, which is not stored.  Reaching the end of the file sets
`eofbit`; extracting nothing at all sets `failbit`. -/
def getline (s : ifstream) (v : List Char) : ifstream × List Char :=
  match s.sentry true with
  | (s1, false) => (s1, v)
  | (s1, true) =>
    let ln := s1.rest.takeWhile (fun c => c != '\n')
    if (s1.rest.dropWhile (fun c => c != '\n')).isEmpty then
      ((s1.advance ln.length).setstate true ln.isEmpty, ln)
    else (s1.advance (ln.length + 1), ln)

/-- Method `get(c)`: extracts one character; at the end of the file sets
`eofbit` and `failbit` and leaves `c` alone. -/
def get (s : ifstream) (c : Char) : ifstream × Char :=
  match s.sentry true with
  | (s1, false) => (s1, c)
  | (s1, true) =>
    match s1.rest with
    | [] => (s1.setstate true true, c)
    | ch :: _ => (s1.advance 1, ch)

end ifstream

/-- What a run of a program leaves behind: the text sent to standard output,
the text sent to the error stream, and the exit status. -/
structure Outcome where
  stdout : List Char
  stderr : List Char
  status : Nat
deriving DecidableEq

/-! ## The Reader, `file-input.cpp` -/

namespace FileInput

/-- One evaluation of `infile >> p.first_name >> p.last_name >> p.job >> p.age`
(line 171); `p` lives across the loop iterations, so its old value comes in. -/
def readPerson (s : ifstream) (p : person) : ifstream × person :=
  let r1 := s.extractString p.first_name
  let r2 := r1.1.extractString p.last_name
  let r3 := r2.1.extractString p.job
  let r4 := r3.1.extractInt p.age
  (r4.1, { first_name := r1.2, last_name := r2.2, job := r3.2, age := r4.2 })

/-- The character loop of lines 130-136: the characters sent to standard
output, in order, and the stream when the loop is left.  `none`: the step
budget ran out before the loop ended. -/
def charScan : Nat → ifstream → Char → Option (List Char × ifstream)
  | 0, _, _ => none
  | fuel + 1, s, c =>
    if s.eof then some ([], s)
    else
      let g := s.get c
      if g.1.fail then some ([], g.1)
      else (charScan fuel g.1 g.2).map (fun r => (g.2 :: r.1, r.2))

/-- The line loop of lines 145-151. -/
def lineScan : Nat → ifstream → List Char → Option (List (List Char) × ifstream)
  | 0, _, _ => none
  | fuel + 1, s, line =>
    if s.eof then some ([], s)
    else
      let g := s.getline line
      if g.1.fail then some ([], g.1)
      else (lineScan fuel g.1 g.2).map (fun r => (g.2 :: r.1, r.2))

/-- The record loop of lines 170-177. -/
def recordScan : Nat → ifstream → person → Option (List person × ifstream)
  | 0, _, _ => none
  | fuel + 1, s, p =>
    if s.eof then some ([], s)
    else
      let g := readPerson s p
      if g.1.fail then some ([], g.1)
      else (recordScan fuel g.1 g.2).map (fun r => (g.2 :: r.1, r.2))

/-- The loop body on a stream freshly opened on `line`: the record the
iteration emits, `none` when it breaks instead. -/
def parseLine (line : List Char) (p : person) : Option person :=
  let g := readPerson (ifstream.opened line) p
  if g.1.fail then none else some g.2

/-- The locals after the single-read steps of lines 56-108, the outcome of
the `fail()` test that follows each read, and the stream they leave. -/
structure Steps where
  str : List Char
  strFailed : Bool
  n : Int
  nFailed : Bool
  line : List Char
  lineFailed : Bool
  c : Char
  cFailed : Bool
  stream : ifstream
deriving DecidableEq

/-- Lines 56-108: the token, integer, line and character reads, each
continuing where the one before stopped; only the flags are cleared, once,
after the integer read (line 78).  `n0` and `c0` are the indeterminate
initial values of the locals `n` and `c`. -/
def singleReads (s0 : ifstream) (n0 : Int) (c0 : Char) : Steps :=
  let r1 := s0.extractString []
  let r2 := r1.1.extractInt n0
  let s3 := r2.1.clear
  let r4 := s3.getline []
  let r5 := r4.1.get c0
  { str := r1.2, strFailed := r1.1.fail
    n := r2.2, nFailed := r2.1.fail
    line := r4.2, lineFailed := r4.1.fail
    c := r5.2, cFailed := r5.1.fail
    stream := r5.1 }

/-- Text of one emitted character or line in the scans: ` "x"`. -/
def quoted (x : List Char) : List Char := " \"".toList ++ x ++ "\"".toList

/-- Text of one emitted record (lines 175-176). -/
def personLine (p : person) : List Char :=
  "Name: ".toList ++ p.first_name ++ " ".toList ++ p.last_name ++ "\tJob: ".toList
    ++ p.job ++ "\tAge: ".toList ++ intToChars p.age ++ "\n".toList

/-- Standard output of lines 56-108. -/
def stepsText (st : Steps) : List Char :=
  (if st.strFailed then "Failed to read a string.\n".toList
    else "Read this string: ".toList ++ st.str ++ "\n".toList)
  ++ (if st.nFailed then "Failed to read an int.\n".toList
    else "Read this int: ".toList ++ intToChars st.n ++ "\n".toList)
  ++ (if st.lineFailed then "Failed to read a line.\n".toList
    else "Read this line: ".toList ++ st.line ++ "\n".toList)
  ++ (if st.cFailed then "Failed to read a char.\n".toList
    else "Read this char: ".toList ++ [st.c] ++ "\n".toList)

/-- The cursor reset written before each loop: `infile.clear();
infile.seekg(0);`. -/
def rewind (s : ifstream) : ifstream := s.clear.seekg 0

/-- The program `file-input.cpp`.  `file` is the content of
`people-to-read.txt`, `none` when it cannot be opened; `n0`, `c0` and `age0`
are the indeterminate initial values of `n`, `c` and `p.age`.  The three
loops get a budget of one step more than the file has bytes. -/
def main (file : Option (List Char)) (n0 : Int) (c0 : Char) (age0 : Int) :
    Option Outcome :=
  match file with
  | none =>
    some { stdout := [], stderr := "Failed to open file.\n".toList, status := 1 }
  | some content =>
    let st := singleReads (ifstream.opened content) n0 c0
    let fuel := content.length + 1
    (charScan fuel (rewind st.stream) st.c).bind fun chars =>
    (lineScan fuel (rewind chars.2) st.line).bind fun lines =>
    (recordScan fuel (rewind lines.2)
        { first_name := [], last_name := [], job := [], age := age0 }).bind fun people =>
    some
      { stdout :=
          stepsText st
          ++ "File contents, read a character at a time:".toList
          ++ (chars.1.map (fun ch => quoted [ch])).flatten ++ "\n\n".toList
          ++ "File contents, read a line at a time:".toList
          ++ (lines.1.map quoted).flatten ++ "\n\n".toList
          ++ "File contents, read a person at a time:\n".toList
          ++ (people.1.map personLine).flatten
        stderr := []
        status := 0 }

end FileInput

/-! ## The Writer, `file-output.cpp` -/

namespace FileOutput

/-- The two destination files as the Writer finds them: the content of each
(`none`: the file does not exist), whether opening it for writing succeeds,
and whether the bytes then written to it reach it (they do not on a full
device, for instance). -/
structure Disk where
  overwrite : Option (List Char)
  overwriteOpens : Bool
  overwriteWrites : Bool
  append : Option (List Char)
  appendOpens : Bool
  appendWrites : Bool
deriving DecidableEq

/-- State of the `std::ofstream`: the content of the open file (`none`: no
file is open), the bytes inserted but not yet written to it, whether the
file accepts the bytes written to it, and the state flags. -/
structure ofstream where
  file : Option (List Char)
  pending : List Char
  accepts : Bool
  failbit : Bool
  badbit : Bool
deriving DecidableEq

/-- The default-constructed stream of line 49. -/
def ofstream.init : ofstream :=
  { file := none, pending := [], accepts := false, failbit := false, badbit := false }

/-- Method `fail()`. -/
def ofstream.fail (o : ofstream) : Bool := o.failbit || o.badbit

/-- Method `open(path, mode)` on a file with content `content`.  A failed
open sets `failbit`; a successful one clears the state.  The default mode
truncates the file, `app` keeps the content and puts every write after it; a
missing file is created empty. -/
def ofstream.open (o : ofstream) (content : Option (List Char)) (opens accepts app : Bool) :
    ofstream :=
  if opens then
    { file := some (if app then content.getD [] else []), pending := [], accepts := accepts,
      failbit := false, badbit := false }
  else { o with file := none, failbit := true }

/-- Insertion of characters: they go to the stream buffer; a stream that is
not good takes nothing and gets `failbit`. -/
def ofstream.put (o : ofstream) (cs : List Char) : ofstream :=
  if o.fail then { o with failbit := true } else { o with pending := o.pending ++ cs }

/-- Method `flush()`: the buffered bytes are written after what the file
holds; when the file does not accept them the stream gets `badbit` and the
file stays as it is. -/
def ofstream.flush (o : ofstream) : ofstream :=
  if o.fail then o
  else if o.accepts then
    { o with file := o.file.map (fun old => old ++ o.pending), pending := [] }
  else { o with badbit := true }

/-- Manipulator `std::endl`: a newline, then `flush()`. -/
def ofstream.endl (o : ofstream) : ofstream := (o.put "\n".toList).flush

/-- Method `close()`: what is still buffered is written if the file accepts
it, otherwise it is lost and the stream gets `failbit`; the file is closed.
The second component is the content the file is left with. -/
def ofstream.close (o : ofstream) : ofstream × Option (List Char) :=
  if o.pending.isEmpty then ({ o with file := none }, o.file)
  else if o.accepts then
    ({ o with file := none, pending := [] }, o.file.map (fun old => old ++ o.pending))
  else ({ o with file := none, pending := [], failbit := true }, o.file)

/-- The literal record of lines 28-33. -/
def p : person :=
  { first_name := "Darth".toList, last_name := "Vader".toList,
    job := "Imperial-Lord".toList, age := 40 }

/-- The insertion chain of lines 70-71 and 95-96:
`out << p.first_name << " " << p.last_name << " " << p.job << " " << p.age << std::endl`. -/
def writePerson (o : ofstream) (r : person) : ofstream :=
  ((((((o.put r.first_name).put " ".toList).put r.last_name).put " ".toList).put
    r.job).put " ".toList).put (intToChars r.age) |>.endl

/-- The bytes `writePerson` sends for a record. -/
def serialize (r : person) : List Char :=
  r.first_name ++ " ".toList ++ r.last_name ++ " ".toList ++ r.job ++ " ".toList
    ++ intToChars r.age ++ "\n".toList

/-- The program `file-output.cpp`: the outcome of the run and the two files
afterwards.  A file whose open failed is left as it was.  The stream is not
tested after the insertions or after `close()`, so a write that fails goes
unnoticed. -/
def main (d : Disk) : Outcome × Disk :=
  let o1 := ofstream.init.open d.overwrite d.overwriteOpens d.overwriteWrites false
  if o1.fail then
    ({ stdout := "Failed to open file.\n".toList, stderr := [], status := 1 }, d)
  else
    let c1 := (writePerson o1 p).close
    let d1 := { d with overwrite := c1.2 }
    let o2 := c1.1.open d1.append d1.appendOpens d1.appendWrites true
    if o2.fail then
      ({ stdout := "Failed to open file.\n".toList, stderr := [], status := 1 }, d1)
    else
      let c2 := (writePerson o2 p).close
      ({ stdout := [], stderr := [], status := 0 }, { d1 with append := c2.2 })

end FileOutput

/-! ## Reference descriptions used by the statements -/

/-- The lines of a file as the specification describes them: the segments
between newlines, without the empty segment that follows a final newline
and without the single empty segment of an empty file. -/
def fileLines (content : List Char) : List (List Char) :=
  let segs := content.splitOn '\n'
  if segs.getLast? = some [] then segs.dropLast else segs

/-- A text field as the record format wants it: not empty and free of white
space. -/
def isToken (t : List Char) : Bool := !t.isEmpty && t.all (fun c => !isspace c)

/-- A separator between two fields: white space, at least one character. -/
def isGap (g : List Char) : Bool := !g.isEmpty && g.all isspace

/-- The value fits a 32-bit `int`. -/
def fitsInt (i : Int) : Bool := decide (INT_MIN ≤ i) && decide (i ≤ INT_MAX)

/-- A record that respects the on-disk format: three text tokens and an age
in the range of `int`. -/
def person.wellFormed (r : person) : Bool :=
  isToken r.first_name && isToken r.last_name && isToken r.job && fitsInt r.age

/-- One line of a well-formed file: a record and the white space that
separates its four fields. -/
structure Entry where
  record : person
  gap1 : List Char
  gap2 : List Char
  gap3 : List Char
deriving DecidableEq

/-- The characters of the line, without a line terminator. -/
def Entry.text (e : Entry) : List Char :=
  e.record.first_name ++ e.gap1 ++ e.record.last_name ++ e.gap2 ++ e.record.job ++ e.gap3
    ++ intToChars e.record.age

/-- The record is well formed and the separators are white space. -/
def Entry.wellFormed (e : Entry) : Bool :=
  e.record.wellFormed && isGap e.gap1 && isGap e.gap2 && isGap e.gap3

/-- The line as the Writer lays it out: single spaces between the fields. -/
def Entry.plain (r : person) : Entry :=
  { record := r, gap1 := [' '], gap2 := [' '], gap3 := [' '] }

/-- A file of the given lines, a newline between consecutive lines and,
when `finalNewline`, one after the last line. -/
def fileOf : List Entry → Bool → List Char
  | [], _ => []
  | [e], finalNewline => e.text ++ (if finalNewline then ['\n'] else [])
  | e :: e' :: es, finalNewline => e.text ++ '\n' :: fileOf (e' :: es) finalNewline

/-- The white-space-delimited tokens of a text. -/
def tokens (l : List Char) : List (List Char) :=
  (l.splitOnP isspace).filter (fun t => !t.isEmpty)

/-- The token is a base-10 integer: an optional sign, then digits only, at
least one. -/
def isIntToken (t : List Char) : Bool :=
  let body := if t.head? = some '-' ∨ t.head? = some '+' then t.tail else t
  !body.isEmpty && body.all isdigit

/-- A line in the record format: exactly three text tokens followed by a
base-10 integer token. -/
def wellFormedLine (l : List Char) : Bool :=
  match tokens l with
  | [_, _, _, t] => isIntToken t
  | _ => false

/-- The token begins with a base-10 integer that fits an `int`: after an
optional sign comes at least one digit, and the digits up to the first other
character denote, with the sign, a value in range. -/
def startsWithInt (t : List Char) : Bool :=
  let body := if t.head? = some '-' ∨ t.head? = some '+' then t.tail else t
  let digs := body.takeWhile isdigit
  !digs.isEmpty &&
    (if t.head? = some '-' then decide (digitsVal digs ≤ 2147483648)
     else decide (digitsVal digs ≤ 2147483647))

/-- The text cannot start with a record: it has fewer than four tokens, or
its fourth token does not begin with an integer that fits an `int`. -/
def noRecordAhead (l : List Char) : Bool :=
  match tokens l with
  | _ :: _ :: _ :: t :: _ => !startsWithInt t
  | _ => true

/-! ## Properties of the stream operations -/

namespace ifstream

theorem drop_takeWhile_length {α : Type} (q : α → Bool) (l : List α) :
    l.drop (l.takeWhile q).length = l.dropWhile q := by
  induction l with
  | nil => rfl
  | cons a t ih =>
    by_cases h : q a = true
    · simp [List.takeWhile_cons, List.dropWhile_cons, h, ih]
    · simp [List.takeWhile_cons, List.dropWhile_cons, h]

@[simp]
theorem setstate_data (s : ifstream) (e f : Bool) : (s.setstate e f).data = s.data := rfl

@[simp]
theorem setstate_pos (s : ifstream) (e f : Bool) : (s.setstate e f).pos = s.pos := rfl

@[simp]
theorem setstate_rest (s : ifstream) (e f : Bool) : (s.setstate e f).rest = s.rest := rfl

@[simp]
theorem setstate_eofbit (s : ifstream) (e f : Bool) :
    (s.setstate e f).eofbit = (s.eofbit || e) := rfl

@[simp]
theorem setstate_failbit (s : ifstream) (e f : Bool) :
    (s.setstate e f).failbit = (s.failbit || f) := rfl

@[simp]
theorem advance_data (s : ifstream) (k : Nat) : (s.advance k).data = s.data := rfl

@[simp]
theorem advance_pos (s : ifstream) (k : Nat) : (s.advance k).pos = s.pos + k := rfl

@[simp]
theorem advance_eofbit (s : ifstream) (k : Nat) : (s.advance k).eofbit = s.eofbit := rfl

@[simp]
theorem advance_failbit (s : ifstream) (k : Nat) : (s.advance k).failbit = s.failbit := rfl

@[simp]
theorem advance_rest (s : ifstream) (k : Nat) : (s.advance k).rest = s.rest.drop k := by
  simp [rest, advance, List.drop_drop]

theorem good_iff (s : ifstream) : s.good = true ↔ s.eofbit = false ∧ s.failbit = false := by
  simp [good]

theorem rest_ne_nil_iff (s : ifstream) : s.rest ≠ [] ↔ s.pos < s.data.length := by
  simp [rest]

/-- A stream that is not `good()` fails the sentry and only gains `failbit`. -/
theorem sentry_not_good (s : ifstream) (b : Bool) (h : s.good = false) :
    s.sentry b = (s.setstate false true, false) := by
  simp [sentry, h]

theorem sentry_noskipws (s : ifstream) (h : s.good = true) : s.sentry true = (s, true) := by
  simp [sentry, h]

theorem sentry_skipws (s : ifstream) (h : s.good = true) :
    s.sentry false =
      if (s.rest.dropWhile isspace).isEmpty then
        ((s.advance (s.rest.takeWhile isspace).length).setstate true true, false)
      else (s.advance (s.rest.takeWhile isspace).length, true) := by
  simp [sentry, h]

/-- The sentry keeps the file, never moves the cursor back and never clears
`failbit`; when it succeeds the stream is still good, when it fails
`failbit` is set. -/
theorem sentry_facts (s : ifstream) (b : Bool) :
    (s.sentry b).1.data = s.data ∧ s.pos ≤ (s.sentry b).1.pos ∧
      (s.failbit = true → (s.sentry b).1.failbit = true) ∧
      ((s.sentry b).2 = true → (s.sentry b).1.good = true) ∧
      ((s.sentry b).2 = false → (s.sentry b).1.failbit = true) := by
  by_cases hg : s.good = true
  · cases b
    · rw [sentry_skipws s hg]
      split <;> simp_all [good]
    · rw [sentry_noskipws s hg]
      simp_all [good]
  · have hg' : s.good = false := by simpa using hg
    rw [sentry_not_good s b hg']
    simp

/-- After a successful skipping sentry the cursor is on a character that is
not white space. -/
theorem sentry_skipws_ok (s : ifstream) (h : (s.sentry false).2 = true) :
    s.good = true ∧ (s.sentry false).1.rest = s.rest.dropWhile isspace ∧
      s.rest.dropWhile isspace ≠ [] := by
  by_cases hg : s.good = true
  · rw [sentry_skipws s hg] at h ⊢
    split at h
    · simp at h
    · rename_i hne
      rw [if_neg hne]
      exact ⟨hg, by simp [drop_takeWhile_length], by simpa using hne⟩
  · have hg' : s.good = false := by simpa using hg
    rw [sentry_not_good s false hg'] at h
    simp at h

/-- Frame and progress of `>>` into a string. -/
theorem extractString_facts (s : ifstream) (v : List Char) :
    (s.extractString v).1.data = s.data ∧ s.pos ≤ (s.extractString v).1.pos ∧
      (s.failbit = true → (s.extractString v).1.failbit = true) ∧
      ((s.extractString v).1.failbit = false →
        s.pos < (s.extractString v).1.pos ∧ s.pos < s.data.length) := by
  have hs := sentry_facts s false
  have hok := sentry_skipws_ok s
  unfold extractString
  rcases hsen : s.sentry false with ⟨s1, ok⟩
  rw [hsen] at hs hok
  cases ok
  · simp only [] at hs ⊢
    refine ⟨hs.1, hs.2.1, hs.2.2.1, ?_⟩
    intro h
    simp [hs.2.2.2.2] at h
  · simp only [] at hs hok ⊢
    have hok := hok trivial
    have hlen : s.pos < s.data.length := by
      rw [← rest_ne_nil_iff]
      intro hnil
      rw [hnil] at hok
      exact hok.2.2 rfl
    simp only [setstate_data, advance_data, setstate_pos, advance_pos, setstate_failbit,
      advance_failbit, Bool.or_eq_true, Bool.or_eq_false_iff, List.isEmpty_eq_false]
    refine ⟨hs.1, by omega, fun hf => Or.inl (hs.2.2.1 hf), ?_⟩
    rintro ⟨_, hne⟩
    have := List.length_pos.mpr hne
    exact ⟨by omega, hlen⟩

/-- Frame of `>>` into an `int`. -/
theorem extractInt_facts (s : ifstream) (v : Int) :
    (s.extractInt v).1.data = s.data ∧ s.pos ≤ (s.extractInt v).1.pos ∧
      (s.failbit = true → (s.extractInt v).1.failbit = true) := by
  have hs := sentry_facts s false
  unfold extractInt
  rcases hsen : s.sentry false with ⟨s1, ok⟩
  rw [hsen] at hs
  cases ok
  · exact ⟨hs.1, hs.2.1, hs.2.2.1⟩
  · simp only [] at hs ⊢
    simp only [setstate_data, advance_data, setstate_pos, advance_pos, setstate_failbit,
      advance_failbit, Bool.or_eq_true]
    exact ⟨hs.1, by omega, fun hf => Or.inl (hs.2.2.1 hf)⟩

/-- Frame and progress of `getline`. -/
theorem getline_facts (s : ifstream) (v : List Char) :
    (s.getline v).1.data = s.data ∧ s.pos ≤ (s.getline v).1.pos ∧
      (s.failbit = true → (s.getline v).1.failbit = true) ∧
      ((s.getline v).1.failbit = false →
        s.pos < (s.getline v).1.pos ∧ s.pos < s.data.length) := by
  by_cases hg : s.good = true
  · unfold getline
    rw [sentry_noskipws s hg]
    have hgood := (good_iff s).mp hg
    simp only []
    split
    · rename_i hnil
      simp only [setstate_data, advance_data, setstate_pos, advance_pos, setstate_failbit,
        advance_failbit, Bool.or_eq_true, Bool.or_eq_false_iff, List.isEmpty_eq_false]
      refine ⟨trivial, by omega, fun hf => Or.inl hf, ?_⟩
      rintro ⟨_, hne⟩
      have hne' : s.rest ≠ [] := by
        intro h0
        rw [h0] at hne
        simp at hne
      have hpos := List.length_pos.mpr hne
      exact ⟨by omega, (rest_ne_nil_iff s).mp hne'⟩
    · rename_i hcons
      have hne : s.rest ≠ [] := by
        intro h0
        rw [h0] at hcons
        simp at hcons
      simp only [advance_data, advance_pos, advance_failbit]
      exact ⟨trivial, by omega, fun hf => hf, fun _ => ⟨by omega, (rest_ne_nil_iff s).mp hne⟩⟩
  · have hg' : s.good = false := by simpa using hg
    unfold getline
    rw [sentry_not_good s true hg']
    simp

/-- Frame and progress of `get`. -/
theorem get_facts (s : ifstream) (c : Char) :
    (s.get c).1.data = s.data ∧ s.pos ≤ (s.get c).1.pos ∧
      (s.failbit = true → (s.get c).1.failbit = true) ∧
      ((s.get c).1.failbit = false →
        s.pos < (s.get c).1.pos ∧ s.pos < s.data.length) := by
  by_cases hg : s.good = true
  · unfold get
    rw [sentry_noskipws s hg]
    simp only []
    split
    · simp
    · rename_i a t hcons
      have hne : s.rest ≠ [] := by rw [hcons]; simp
      simp only [advance_data, advance_pos, advance_failbit]
      exact ⟨trivial, by omega, fun hf => hf, fun _ => ⟨by omega, (rest_ne_nil_iff s).mp hne⟩⟩
  · have hg' : s.good = false := by simpa using hg
    unfold get
    rw [sentry_not_good s true hg']
    simp

/-- The stream after an extraction does not depend on the variable read
into, and neither does the value when the extraction succeeds. -/
theorem extractString_indep (s : ifstream) (v w : List Char) :
    (s.extractString v).1 = (s.extractString w).1 ∧
      ((s.extractString v).1.failbit = false →
        (s.extractString v).2 = (s.extractString w).2) := by
  have hs := sentry_facts s false
  unfold extractString
  rcases hsen : s.sentry false with ⟨s1, ok⟩
  rw [hsen] at hs
  cases ok
  · refine ⟨rfl, fun h => ?_⟩
    simp only [] at hs h
    simp [hs.2.2.2.2] at h
  · exact ⟨rfl, fun _ => rfl⟩

theorem extractInt_indep (s : ifstream) (v w : Int) :
    (s.extractInt v).1 = (s.extractInt w).1 ∧
      ((s.extractInt v).1.failbit = false → (s.extractInt v).2 = (s.extractInt w).2) := by
  have hs := sentry_facts s false
  unfold extractInt
  rcases hsen : s.sentry false with ⟨s1, ok⟩
  rw [hsen] at hs
  cases ok
  · refine ⟨rfl, fun h => ?_⟩
    simp only [] at hs h
    simp [hs.2.2.2.2] at h
  · exact ⟨rfl, fun _ => rfl⟩

theorem getline_indep (s : ifstream) (v w : List Char) :
    (s.getline v).1 = (s.getline w).1 ∧
      ((s.getline v).1.failbit = false → (s.getline v).2 = (s.getline w).2) := by
  have hs := sentry_facts s true
  unfold getline
  rcases hsen : s.sentry true with ⟨s1, ok⟩
  rw [hsen] at hs
  cases ok
  · refine ⟨rfl, fun h => ?_⟩
    simp only [] at hs h
    simp [hs.2.2.2.2] at h
  · exact ⟨rfl, fun _ => rfl⟩

theorem get_indep (s : ifstream) (c d : Char) :
    (s.get c).1 = (s.get d).1 ∧
      ((s.get c).1.failbit = false → (s.get c).2 = (s.get d).2) := by
  have hs := sentry_facts s true
  unfold get
  rcases hsen : s.sentry true with ⟨s1, ok⟩
  rw [hsen] at hs
  cases ok
  · refine ⟨rfl, fun h => ?_⟩
    simp only [] at hs h
    simp [hs.2.2.2.2] at h
  · simp only []
    split
    · exact ⟨rfl, fun h => by simp at h⟩
    · exact ⟨rfl, fun _ => rfl⟩

end ifstream

/-! ## Properties of the Reader's loops -/

namespace FileInput

open ifstream

theorem flag_false_of_imp {a b : Bool} (h : a = true → b = true) (hb : b = false) :
    a = false := by
  cases a
  · rfl
  · rw [h rfl] at hb
    exact Bool.noConfusion hb

/-- A successful record read leaves the file as it was and moves the cursor
forward. -/
theorem readPerson_facts (s : ifstream) (p : person) :
    (readPerson s p).1.data = s.data ∧
      ((readPerson s p).1.failbit = false →
        s.pos < (readPerson s p).1.pos ∧ s.pos < s.data.length) := by
  simp only [readPerson]
  have h1 := extractString_facts s p.first_name
  generalize s.extractString p.first_name = r1 at *
  have h2 := extractString_facts r1.1 p.last_name
  generalize r1.1.extractString p.last_name = r2 at *
  have h3 := extractString_facts r2.1 p.job
  generalize r2.1.extractString p.job = r3 at *
  have h4 := extractInt_facts r3.1 p.age
  generalize r3.1.extractInt p.age = r4 at *
  refine ⟨by rw [h4.1, h3.1, h2.1, h1.1], fun hf => ?_⟩
  have f3 := flag_false_of_imp h4.2.2 hf
  have f2 := flag_false_of_imp h3.2.2.1 f3
  have f1 := flag_false_of_imp h2.2.2.1 f2
  have := h1.2.2.2 f1
  exact ⟨by omega, this.2⟩

/-- The stream after a record read does not depend on the value `p` had,
and neither does the record when the read succeeds. -/
theorem readPerson_indep (s : ifstream) (p q : person) :
    (readPerson s p).1 = (readPerson s q).1 ∧
      ((readPerson s p).1.failbit = false → (readPerson s p).2 = (readPerson s q).2) := by
  simp only [readPerson]
  have h1 := extractString_indep s p.first_name q.first_name
  have g1 := extractString_facts s p.first_name
  rw [← h1.1]
  generalize (s.extractString p.first_name).1 = s1 at *
  have h2 := extractString_indep s1 p.last_name q.last_name
  have g2 := extractString_facts s1 p.last_name
  rw [← h2.1]
  generalize (s1.extractString p.last_name).1 = s2 at *
  have h3 := extractString_indep s2 p.job q.job
  have g3 := extractString_facts s2 p.job
  rw [← h3.1]
  generalize (s2.extractString p.job).1 = s3 at *
  have h4 := extractInt_indep s3 p.age q.age
  have g4 := extractInt_facts s3 p.age
  refine ⟨h4.1, fun hf => ?_⟩
  have f3 := flag_false_of_imp g4.2.2 hf
  have f2 := flag_false_of_imp g3.2.2.1 f3
  have f1 := flag_false_of_imp g2.2.2.1 f2
  rw [h1.2 f1, h2.2 f2, h3.2 f3, h4.2 hf]

/-- The character loop ends within one step more than there are characters
left, and leaves the file as it was. -/
theorem charScan_total : ∀ (fuel : Nat) (s : ifstream) (c : Char),
    s.data.length - s.pos < fuel →
      ∃ r, charScan fuel s c = some r ∧ r.2.data = s.data := by
  intro fuel
  induction fuel with
  | zero => intro s c h; omega
  | succ k ih =>
    intro s c h
    simp only [charScan]
    by_cases he : s.eof = true
    · rw [if_pos he]
      exact ⟨_, rfl, rfl⟩
    · rw [if_neg he]
      have hg := get_facts s c
      by_cases hf : (s.get c).1.fail = true
      · rw [if_pos hf]
        exact ⟨_, rfl, hg.1⟩
      · rw [if_neg hf]
        have hf' : (s.get c).1.failbit = false := by simpa [fail] using hf
        have hp := hg.2.2.2 hf'
        obtain ⟨r, hr, hd⟩ := ih (s.get c).1 (s.get c).2 (by rw [hg.1]; omega)
        rw [hr]
        exact ⟨_, rfl, by rw [← hg.1]; exact hd⟩

theorem lineScan_total : ∀ (fuel : Nat) (s : ifstream) (line : List Char),
    s.data.length - s.pos < fuel →
      ∃ r, lineScan fuel s line = some r ∧ r.2.data = s.data := by
  intro fuel
  induction fuel with
  | zero => intro s c h; omega
  | succ k ih =>
    intro s c h
    simp only [lineScan]
    by_cases he : s.eof = true
    · rw [if_pos he]
      exact ⟨_, rfl, rfl⟩
    · rw [if_neg he]
      have hg := getline_facts s c
      by_cases hf : (s.getline c).1.fail = true
      · rw [if_pos hf]
        exact ⟨_, rfl, hg.1⟩
      · rw [if_neg hf]
        have hf' : (s.getline c).1.failbit = false := by simpa [fail] using hf
        have hp := hg.2.2.2 hf'
        obtain ⟨r, hr, hd⟩ := ih (s.getline c).1 (s.getline c).2 (by rw [hg.1]; omega)
        rw [hr]
        exact ⟨_, rfl, by rw [← hg.1]; exact hd⟩

theorem recordScan_total : ∀ (fuel : Nat) (s : ifstream) (p : person),
    s.data.length - s.pos < fuel →
      ∃ r, recordScan fuel s p = some r ∧ r.2.data = s.data := by
  intro fuel
  induction fuel with
  | zero => intro s c h; omega
  | succ k ih =>
    intro s c h
    simp only [recordScan]
    by_cases he : s.eof = true
    · rw [if_pos he]
      exact ⟨_, rfl, rfl⟩
    · rw [if_neg he]
      have hg := readPerson_facts s c
      by_cases hf : (readPerson s c).1.fail = true
      · rw [if_pos hf]
        exact ⟨_, rfl, hg.1⟩
      · rw [if_neg hf]
        have hf' : (readPerson s c).1.failbit = false := by simpa [fail] using hf
        have hp := hg.2 hf'
        obtain ⟨r, hr, hd⟩ := ih (readPerson s c).1 (readPerson s c).2 (by rw [hg.1]; omega)
        rw [hr]
        exact ⟨_, rfl, by rw [← hg.1]; exact hd⟩

/-- What the character loop emits does not depend on the value `c` holds
when the loop is entered. -/
theorem charScan_indep : ∀ (fuel : Nat) (s : ifstream) (c d : Char),
    charScan fuel s c = charScan fuel s d := by
  intro fuel
  induction fuel with
  | zero => intro s c d; rfl
  | succ k ih =>
    intro s c d
    have hi := get_indep s c d
    simp only [charScan]
    rw [← hi.1]
    by_cases he : s.eof = true
    · simp [he]
    · by_cases hf : (s.get c).1.fail = true
      · simp [he, hf]
      · have hf' : (s.get c).1.failbit = false := by simpa [fail] using hf
        simp only [he, hf, if_false, Bool.false_eq_true]
        rw [← hi.2 hf', ih (s.get c).1 (s.get c).2 (s.get c).2]

theorem lineScan_indep : ∀ (fuel : Nat) (s : ifstream) (v w : List Char),
    lineScan fuel s v = lineScan fuel s w := by
  intro fuel
  induction fuel with
  | zero => intro s c d; rfl
  | succ k ih =>
    intro s c d
    have hi := getline_indep s c d
    simp only [lineScan]
    rw [← hi.1]
    by_cases he : s.eof = true
    · simp [he]
    · by_cases hf : (s.getline c).1.fail = true
      · simp [he, hf]
      · have hf' : (s.getline c).1.failbit = false := by simpa [fail] using hf
        simp only [he, hf, if_false, Bool.false_eq_true]
        rw [← hi.2 hf']

theorem recordScan_indep : ∀ (fuel : Nat) (s : ifstream) (p q : person),
    recordScan fuel s p = recordScan fuel s q := by
  intro fuel
  induction fuel with
  | zero => intro s c d; rfl
  | succ k ih =>
    intro s c d
    have hi := readPerson_indep s c d
    simp only [recordScan]
    rw [← hi.1]
    by_cases he : s.eof = true
    · simp [he]
    · by_cases hf : (readPerson s c).1.fail = true
      · simp [he, hf]
      · have hf' : (readPerson s c).1.failbit = false := by simpa [fail] using hf
        simp only [he, hf, if_false, Bool.false_eq_true]
        rw [← hi.2 hf']

/-- The reset `clear(); seekg(0);` gives the state of a freshly opened
stream over the same file, whatever the cursor and the flags were. -/
theorem rewind_eq_opened (s : ifstream) : rewind s = ifstream.opened s.data := by
  simp [rewind, ifstream.clear, ifstream.seekg, ifstream.opened]

end FileInput

namespace FileInput

open ifstream

theorem singleReads_data (s0 : ifstream) (n0 : Int) (c0 : Char) :
    (singleReads s0 n0 c0).stream.data = s0.data := by
  simp only [singleReads]
  rw [(get_facts _ _).1, (getline_facts _ _).1]
  show (s0.extractString [] |>.1.extractInt n0).1.data = _
  rw [(extractInt_facts _ _).1, (extractString_facts _ _).1]

theorem opened_data (content : List Char) : (opened content).data = content := rfl

/-- Every run of the Reader on a file that opens ends with status 0, and each
of its three loops emits what it emits on a freshly opened stream, whatever
the single reads before it did. -/
theorem main_loops_fresh (content : List Char) (n0 : Int) (c0 : Char) (age0 : Int) :
    ∃ chars lines people,
      (charScan (content.length + 1) (opened content) c0).map Prod.fst = some chars ∧
      (lineScan (content.length + 1) (opened content) []).map Prod.fst = some lines ∧
      (recordScan (content.length + 1) (opened content)
          { first_name := [], last_name := [], job := [], age := age0 }).map Prod.fst
        = some people ∧
      main (some content) n0 c0 age0 = some
        { stdout :=
            stepsText (singleReads (opened content) n0 c0)
            ++ "File contents, read a character at a time:".toList
            ++ (chars.map (fun ch => quoted [ch])).flatten ++ "\n\n".toList
            ++ "File contents, read a line at a time:".toList
            ++ (lines.map quoted).flatten ++ "\n\n".toList
            ++ "File contents, read a person at a time:\n".toList
            ++ (people.map personLine).flatten
          stderr := []
          status := 0 } := by
  obtain ⟨r1, h1, d1⟩ := charScan_total (content.length + 1) (opened content) c0
    (by simp [opened])
  obtain ⟨r2, h2, d2⟩ := lineScan_total (content.length + 1) (opened content) []
    (by simp [opened])
  obtain ⟨r3, h3, _⟩ := recordScan_total (content.length + 1) (opened content)
    { first_name := [], last_name := [], job := [], age := age0 } (by simp [opened])
  refine ⟨r1.1, r2.1, r3.1, by rw [h1]; rfl, by rw [h2]; rfl, by rw [h3]; rfl, ?_⟩
  simp only [main]
  rw [rewind_eq_opened, singleReads_data, opened_data,
    charScan_indep _ _ (singleReads (opened content) n0 c0).c c0, h1, Option.some_bind,
    rewind_eq_opened, d1, opened_data,
    lineScan_indep _ _ (singleReads (opened content) n0 c0).line [], h2, Option.some_bind,
    rewind_eq_opened, d2, opened_data, h3, Option.some_bind]

end FileInput

namespace FileOutput

/-- Through a good stream with an empty buffer on a file that accepts what
is written, the insertion chain puts the bytes of `serialize` after what the
file holds. -/
theorem writePerson_accepts (o : ofstream) (r : person) (hf : o.failbit = false)
    (hb : o.badbit = false) (hp : o.pending = []) (ha : o.accepts = true) :
    writePerson o r = { o with file := o.file.map (fun old => old ++ serialize r) } := by
  rcases o with ⟨file, pending, accepts, failbit, badbit⟩
  simp only at hf hb hp ha
  subst hf hb hp ha
  cases file <;>
    simp [writePerson, ofstream.put, ofstream.endl, ofstream.flush, ofstream.fail, serialize]

/-- When the file does not accept what is written, the bytes of `serialize`
stay in the buffer, the stream gets `badbit` and the file is as before. -/
theorem writePerson_rejects (o : ofstream) (r : person) (hf : o.failbit = false)
    (hb : o.badbit = false) (hp : o.pending = []) (ha : o.accepts = false) :
    writePerson o r = { o with pending := serialize r, badbit := true } := by
  rcases o with ⟨file, pending, accepts, failbit, badbit⟩
  simp only at hf hb hp ha
  subst hf hb hp ha
  simp [writePerson, ofstream.put, ofstream.endl, ofstream.flush, ofstream.fail, serialize]

theorem serialize_p : serialize p = "Darth Vader Imperial-Lord 40\n".toList := by decide

theorem serialize_ne_nil (r : person) : (serialize r).isEmpty = false := by
  simp [serialize]

/-- The two files after a run of the Writer, by which opens and writes
succeed. -/
theorem main_files (d : Disk) :
    (main d).2.overwrite =
        (if d.overwriteOpens then
          some (if d.overwriteWrites then serialize p else [])
         else d.overwrite) ∧
      (main d).2.append =
        (if d.overwriteOpens && d.appendOpens then
          some (if d.appendWrites then d.append.getD [] ++ serialize p else d.append.getD [])
         else d.append) ∧
      (main d).1.status = (if d.overwriteOpens && d.appendOpens then 0 else 1) := by
  rcases d with ⟨a, oa, wa, b, ob, wb⟩
  cases oa
  · simp [main, ofstream.open, ofstream.init, ofstream.fail]
  · have h1 : (ofstream.init.open a true wa false)
        = { file := some [], pending := [], accepts := wa, failbit := false, badbit := false } := by
      simp [ofstream.open]
    have hfail1 : (ofstream.init.open a true wa false).fail = false := by
      rw [h1]; rfl
    simp only [main, hfail1, Bool.false_eq_true, if_false, h1]
    cases wa
    · rw [writePerson_rejects _ _ rfl rfl rfl rfl]
      cases ob
      · simp [ofstream.open, ofstream.close, ofstream.fail, serialize_ne_nil]
      · cases wb
        · simp [ofstream.open, ofstream.close, ofstream.fail, serialize_ne_nil,
            writePerson_rejects]
        · simp [ofstream.open, ofstream.close, ofstream.fail, serialize_ne_nil,
            writePerson_accepts]
    · rw [writePerson_accepts _ _ rfl rfl rfl rfl]
      cases ob
      · simp [ofstream.open, ofstream.close, ofstream.fail, serialize_ne_nil]
      · cases wb
        · simp [ofstream.open, ofstream.close, ofstream.fail, serialize_ne_nil,
            writePerson_rejects]
        · simp [ofstream.open, ofstream.close, ofstream.fail, serialize_ne_nil,
            writePerson_accepts]

end FileOutput

/-! ## The claims -/

/-- C4 (as stated, refuted). A successful open is not enough: when destination
A opens but does not accept the bytes written to it, the run ends with status
0 and leaves A empty, not holding the line `Darth Vader Imperial-Lord 40`. -/
theorem writer_truncate_lost_write :
    (FileOutput.main ⟨some "Han Solo Smuggler 32\nold".toList, true, false,
        some "keep\n".toList, true, true⟩).2.overwrite = some [] ∧
      (FileOutput.main ⟨some "Han Solo Smuggler 32\nold".toList, true, false,
        some "keep\n".toList, true, true⟩).2.overwrite
        ≠ some "Darth Vader Imperial-Lord 40\n".toList ∧
      (FileOutput.main ⟨some "Han Solo Smuggler 32\nold".toList, true, false,
        some "keep\n".toList, true, true⟩).1.status = 0 := by
  decide

/-- C4 (amended). Truncate semantics of the Writer: whatever destination A
(`people-to-overwrite.txt`) held before, also nothing or no file at all, when
its open succeeds and the file accepts the bytes written to it, the file
holds after the run exactly the one line `Darth Vader Imperial-Lord 40` and
its newline, and none of the prior bytes. -/
theorem writer_truncates (d : FileOutput.Disk) (h : d.overwriteOpens = true)
    (hw : d.overwriteWrites = true) :
    (FileOutput.main d).2.overwrite = some "Darth Vader Imperial-Lord 40\n".toList := by
  rw [(FileOutput.main_files d).1, h, hw, ← FileOutput.serialize_p]
  rfl

/-- A destination that held two lines holds the one record afterwards. -/
theorem writer_truncates_witness :
    (FileOutput.main ⟨some "Han Solo Smuggler 32\nold".toList, true, true,
        none, false, false⟩).2.overwrite
      = some "Darth Vader Imperial-Lord 40\n".toList :=
  writer_truncates ⟨some "Han Solo Smuggler 32\nold".toList, true, true, none, false, false⟩
    rfl rfl

/-- C5 (as stated, refuted). Successful opens are not enough: when destination
B opens but does not accept the bytes written to it, the run ends with status
0 and leaves B as it was, so its length has not grown by the length of the
serialized line. -/
theorem writer_append_lost_write :
    (FileOutput.main ⟨none, true, true, some "keep\n".toList, true, false⟩).2.append
        = some "keep\n".toList ∧
      (FileOutput.main ⟨none, true, true, some "keep\n".toList, true, false⟩).2.append
        ≠ some ("keep\n".toList ++ FileOutput.serialize FileOutput.p) ∧
      (FileOutput.main ⟨none, true, true, some "keep\n".toList, true, false⟩).1.status = 0 := by
  decide

/-- C5 (amended). Append semantics of the Writer: when both opens succeed and
destination B (`people-to-append-to.txt`) accepts the bytes written to it, B
holds after the run its prior content followed by the serialized line of the
record; the prior content is a prefix of the new one and the length grows by
the length of that line, newline included. -/
theorem writer_appends (d : FileOutput.Disk) (hA : d.overwriteOpens = true)
    (hB : d.appendOpens = true) (hW : d.appendWrites = true) :
    (FileOutput.main d).2.append = some (d.append.getD [] ++ FileOutput.serialize FileOutput.p) ∧
      FileOutput.serialize FileOutput.p = "Darth Vader Imperial-Lord 40\n".toList ∧
      d.append.getD [] <+: d.append.getD [] ++ FileOutput.serialize FileOutput.p ∧
      (d.append.getD [] ++ FileOutput.serialize FileOutput.p).length
        = (d.append.getD []).length + (FileOutput.serialize FileOutput.p).length := by
  refine ⟨?_, FileOutput.serialize_p, List.prefix_append _ _, List.length_append _ _⟩
  rw [(FileOutput.main_files d).2.1, hA, hB, hW]
  rfl

/-- A destination that held one line holds that line and the record
afterwards, also when the write to the other destination was lost. -/
theorem writer_appends_witness :
    (FileOutput.main ⟨none, true, false, some "Han Solo Smuggler 32\n".toList, true, true⟩).2.append
        = some ("Han Solo Smuggler 32\n".toList ++ FileOutput.serialize FileOutput.p) ∧
      FileOutput.serialize FileOutput.p = "Darth Vader Imperial-Lord 40\n".toList ∧
      "Han Solo Smuggler 32\n".toList <+:
        "Han Solo Smuggler 32\n".toList ++ FileOutput.serialize FileOutput.p ∧
      ("Han Solo Smuggler 32\n".toList ++ FileOutput.serialize FileOutput.p).length
        = ("Han Solo Smuggler 32\n".toList).length
          + (FileOutput.serialize FileOutput.p).length :=
  writer_appends ⟨none, true, false, some "Han Solo Smuggler 32\n".toList, true, true⟩
    rfl rfl rfl

/-- C7. Cursor reset: from any stream state, with the cursor anywhere and
any of `eofbit` and `failbit` set, `clear()` followed by `seekg(0)` gives a
state from which the character, line and record loops do exactly what they
do on a freshly opened stream over the same file, whatever the locals `c`,
`line` and `p` hold when the loop is entered. -/
theorem reset_behaves_as_fresh (s : ifstream) (fuel : Nat) (c c' : Char)
    (line line' : List Char) (q q' : person) :
    FileInput.charScan fuel ((s.clear).seekg 0) c
        = FileInput.charScan fuel (ifstream.opened s.data) c' ∧
      FileInput.lineScan fuel ((s.clear).seekg 0) line
        = FileInput.lineScan fuel (ifstream.opened s.data) line' ∧
      FileInput.recordScan fuel ((s.clear).seekg 0) q
        = FileInput.recordScan fuel (ifstream.opened s.data) q' := by
  have h := FileInput.rewind_eq_opened s
  simp only [FileInput.rewind] at h
  rw [h]
  exact ⟨FileInput.charScan_indep _ _ _ _, FileInput.lineScan_indep _ _ _ _,
    FileInput.recordScan_indep _ _ _ _⟩

/-- C8. When the Writer cannot open destination A it sends `Failed to open
file.` to standard output and nothing to the error stream, and so it does
when destination B cannot be opened, while the Reader sends the same message
to the error stream and nothing to standard output. -/
theorem writer_reports_open_failure_on_stdout :
    (FileOutput.main ⟨none, false, true, none, true, true⟩).1
      = { stdout := "Failed to open file.\n".toList, stderr := [], status := 1 } ∧
    (FileOutput.main ⟨none, true, true, none, false, true⟩).1
      = { stdout := "Failed to open file.\n".toList, stderr := [], status := 1 } ∧
    FileInput.main none 0 'c' 0
      = some { stdout := [], stderr := "Failed to open file.\n".toList, status := 1 } := by
  decide

/-- C9. Exit status: the Reader ends with a non-zero status exactly when its
file cannot be opened, and with status 0 for every content of a file that
opens, whatever reads fail on it; the Writer ends with a non-zero status
exactly when the open of destination A or of destination B fails, and with
status 0 otherwise. -/
theorem exit_status_iff_open_fails :
    (∀ (file : Option (List Char)) (n0 : Int) (c0 : Char) (age0 : Int),
      ∃ o, FileInput.main file n0 c0 age0 = some o ∧ (o.status ≠ 0 ↔ file = none) ∧
        o.status = if file = none then 1 else 0) ∧
    (∀ d : FileOutput.Disk,
      ((FileOutput.main d).1.status ≠ 0 ↔ (d.overwriteOpens = false ∨ d.appendOpens = false)) ∧
      (FileOutput.main d).1.status = if d.overwriteOpens && d.appendOpens then 0 else 1) := by
  constructor
  · intro file n0 c0 age0
    cases file with
    | none => exact ⟨_, rfl, by simp, by simp⟩
    | some content =>
      obtain ⟨_, _, _, _, _, _, ho⟩ := FileInput.main_loops_fresh content n0 c0 age0
      exact ⟨_, ho, by simp, by simp⟩
  · intro d
    rw [(FileOutput.main_files d).2.2]
    cases d.overwriteOpens <;> cases d.appendOpens <;> simp

/-! ## The line loop against the lines of the file -/

theorem span_no_stop {α : Type} (q : α → Bool) (l : List α) (h : (l.dropWhile q).isEmpty = true) :
    l.takeWhile q = l ∧ ∀ x ∈ l, q x = true := by
  have h0 : l.dropWhile q = [] := by simpa using h
  have := List.dropWhile_eq_nil_iff.mp h0
  exact ⟨List.takeWhile_eq_self_iff.mpr this, this⟩

theorem span_stop {α : Type} (q : α → Bool) (l : List α) (h : (l.dropWhile q).isEmpty = false) :
    ∃ c t, l.dropWhile q = c :: t ∧ l = l.takeWhile q ++ c :: t ∧ q c = false := by
  have hne : l.dropWhile q ≠ [] := by simpa using h
  have hq := List.head_dropWhile_not q l hne
  obtain ⟨c, t, hct⟩ := List.exists_cons_of_ne_nil hne
  refine ⟨c, t, hct, ?_, ?_⟩
  · rw [← hct]
    exact (List.takeWhile_append_dropWhile q l).symm
  · simpa [hct] using hq

theorem fileLines_nil : fileLines [] = [] := by decide

theorem fileLines_single (l : List Char) (h : ∀ c ∈ l, (c != '\n') = true) (hne : l ≠ []) :
    fileLines l = [l] := by
  have hs : l.splitOn '\n' = [l] := by
    apply List.splitOnP_eq_single
    intro x hx
    simpa using h x hx
  simp [fileLines, hs, hne]

theorem fileLines_line (ln after : List Char) (h : ∀ c ∈ ln, (c != '\n') = true) :
    fileLines (ln ++ '\n' :: after) = ln :: fileLines after := by
  have hs : (ln ++ '\n' :: after).splitOn '\n' = ln :: after.splitOn '\n' := by
    apply List.splitOnP_first
    · intro x hx
      simpa using h x hx
    · simp
  have hne : after.splitOn '\n' ≠ [] := List.splitOnP_ne_nil _ _
  obtain ⟨a, t, hat⟩ := List.exists_cons_of_ne_nil hne
  simp only [fileLines, hs, hat, List.getLast?_cons_cons, List.dropLast_cons₂]
  split <;> rfl

namespace FileInput

open ifstream

/-- From a good stream the line loop emits the lines of what is left of the
file. -/
theorem lineScan_rest : ∀ (fuel : Nat) (s : ifstream) (line : List Char),
    s.good = true → s.rest.length < fuel →
      ∃ sf, lineScan fuel s line = some (fileLines s.rest, sf) := by
  intro fuel
  induction fuel with
  | zero => intro s line _ h; omega
  | succ k ih =>
    intro s line hg hlen
    have hgood := (good_iff s).mp hg
    simp only [lineScan, eof, hgood.1, Bool.false_eq_true, if_false, getline,
      sentry_noskipws s hg, fail]
    by_cases hend : (s.rest.dropWhile (fun c => c != '\n')).isEmpty = true
    · obtain ⟨htake, hall⟩ := span_no_stop _ _ hend
      rw [if_pos hend, htake]
      by_cases hnil : s.rest = []
      · simp [hnil, fileLines_nil]
      · have hk : ∃ j, k = j + 1 := by
          have := List.length_pos.mpr hnil
          exact ⟨k - 1, by omega⟩
        obtain ⟨j, rfl⟩ := hk
        simp [hnil, hgood.2, lineScan, eof, fileLines_single _ hall hnil]
    · have hend' : (s.rest.dropWhile (fun c => c != '\n')).isEmpty = false := by
        simpa using hend
      obtain ⟨c, t, hdrop, hsplit, hc⟩ := span_stop _ _ hend'
      have hc' : c = '\n' := by simpa using hc
      subst hc'
      rw [if_neg hend]
      have hrest : (s.advance ((s.rest.takeWhile (fun c => c != '\n')).length + 1)).rest = t := by
        rw [advance_rest, ← List.drop_drop, drop_takeWhile_length, hdrop]
        rfl
      have hlt : t.length < k := by
        have : s.rest.length = (s.rest.takeWhile (fun c => c != '\n')).length + (t.length + 1) := by
          conv_lhs => rw [hsplit]
          simp
        omega
      obtain ⟨sf, hsf⟩ := ih (s.advance ((s.rest.takeWhile (fun c => c != '\n')).length + 1))
        (s.rest.takeWhile (fun c => c != '\n')) (by simpa [good] using hgood)
        (by rw [hrest]; exact hlt)
      rw [hrest] at hsf
      have hfl : fileLines s.rest = s.rest.takeWhile (fun c => c != '\n') :: fileLines t := by
        conv_lhs => rw [hsplit]
        exact fileLines_line _ _ (fun x hx => by have h2 := List.mem_takeWhile_imp hx; exact h2)
      simp [hgood.2, hsf, hfl]

end FileInput

/-- C10. The line loop emits exactly the lines of the file: started at offset
0 with the flags clear, on any content and with any step budget above the
file length, it emits in order the segments between newlines, without the
empty segment after a final newline and without anything for an empty file;
the read attempt that lands on the end of the file emits nothing. -/
theorem lineScan_emits_fileLines (content : List Char) (fuel : Nat) (line : List Char)
    (h : content.length < fuel) :
    ∃ sf, FileInput.lineScan fuel (ifstream.opened content) line
      = some (fileLines content, sf) :=
  FileInput.lineScan_rest fuel (ifstream.opened content) line rfl h

/-- A file with an empty line in the middle and a final newline. -/
theorem lineScan_emits_fileLines_witness :
    "Luke Skywalker Jedi 19\n\nHan Solo Smuggler 32\n".toList.length < 50 ∧
    ∃ sf, FileInput.lineScan 50
        (ifstream.opened "Luke Skywalker Jedi 19\n\nHan Solo Smuggler 32\n".toList) []
      = some (fileLines "Luke Skywalker Jedi 19\n\nHan Solo Smuggler 32\n".toList, sf) :=
  ⟨by decide, lineScan_emits_fileLines _ 50 [] (by decide)⟩

/-! ## Numerals: printing and reading back -/

theorem digitChar_facts (d : Nat) (h : d < 10) :
    isdigit (digitChar d) = true ∧ digitVal (digitChar d) = d ∧ isspace (digitChar d) = false ∧
      digitChar d ≠ '-' ∧ digitChar d ≠ '+' := by
  interval_cases d <;> decide

theorem isdigit_not_space (c : Char) (h : isdigit c = true) : isspace c = false := by
  simp only [isdigit, Bool.and_eq_true, decide_eq_true_eq] at h
  simp only [isspace, Bool.or_eq_false_iff, decide_eq_false_iff_not]
  refine ⟨⟨⟨⟨⟨?_, ?_⟩, ?_⟩, ?_⟩, ?_⟩, ?_⟩ <;> intro hc <;> subst hc <;> revert h <;> decide

theorem isspace_not_digit (c : Char) (h : isspace c = true) : isdigit c = false := by
  cases hd : isdigit c
  · rfl
  · rw [isdigit_not_space c hd] at h
    exact Bool.noConfusion h

theorem digitsVal_append_single (ds : List Char) (c : Char) :
    digitsVal (ds ++ [c]) = 10 * digitsVal ds + digitVal c := by
  simp [digitsVal, List.foldl_append]

/-- The digits printed for a number are digits, there is at least one, and
they read back as the number. -/
theorem natDigits_facts : ∀ (fuel n : Nat), n < fuel →
    natDigits fuel n ≠ [] ∧ (∀ c ∈ natDigits fuel n, isdigit c = true) ∧
      digitsVal (natDigits fuel n) = n := by
  intro fuel
  induction fuel with
  | zero => intro n h; omega
  | succ k ih =>
    intro n h
    simp only [natDigits]
    by_cases h10 : n < 10
    · have hd := digitChar_facts n h10
      rw [if_pos h10]
      refine ⟨by simp, ?_, ?_⟩
      · intro c hc
        rw [List.mem_singleton] at hc
        rw [hc]
        exact hd.1
      · simp [digitsVal, hd.2.1]
    · rw [if_neg h10]
      have hlt : n / 10 < k := by omega
      have hd := digitChar_facts (n % 10) (Nat.mod_lt _ (by decide))
      obtain ⟨_, hall, hval⟩ := ih (n / 10) hlt
      refine ⟨by simp, ?_, ?_⟩
      · intro c hc
        rw [List.mem_append, List.mem_singleton] at hc
        rcases hc with hc | hc
        · exact hall c hc
        · rw [hc]
          exact hd.1
      · rw [digitsVal_append_single, hval, hd.2.1]
        omega

theorem natToChars_facts (n : Nat) :
    natToChars n ≠ [] ∧ (∀ c ∈ natToChars n, isdigit c = true) ∧
      digitsVal (natToChars n) = n :=
  natDigits_facts (n + 1) n (Nat.lt_succ_self n)

/-- No white space in a printed `int`, and at least one character. -/
theorem intToChars_token (i : Int) :
    intToChars i ≠ [] ∧ ∀ c ∈ intToChars i, isspace c = false := by
  have hn := natToChars_facts i.natAbs
  unfold intToChars
  split
  · refine ⟨by simp, ?_⟩
    intro c hc
    rw [List.mem_cons] at hc
    rcases hc with hc | hc
    · rw [hc]; decide
    · exact isdigit_not_space c (hn.2.1 c hc)
  · exact ⟨hn.1, fun c hc => isdigit_not_space c (hn.2.1 c hc)⟩

/-- A run whose members all satisfy `q`, followed by nothing or by something
that does not, is what `takeWhile q` takes. -/
theorem span_append {α : Type} (q : α → Bool) (a b : List α) (ha : ∀ x ∈ a, q x = true)
    (hb : ∀ x, b.head? = some x → q x = false) :
    (a ++ b).takeWhile q = a ∧ (a ++ b).dropWhile q = b := by
  induction a with
  | nil =>
    cases b with
    | nil => simp
    | cons x t =>
      have := hb x rfl
      simp [List.takeWhile_cons, List.dropWhile_cons, this]
  | cons x t ih =>
    have hx := ha x (List.mem_cons_self _ _)
    have := ih (fun y hy => ha y (List.mem_cons_of_mem _ hy))
    simp [List.takeWhile_cons, List.dropWhile_cons, hx, this.1, this.2]

/-- Reading back what was printed: on the characters of an `int` in range,
followed by nothing or by something that is not a digit, `num_get` consumes
exactly those characters and stores the value. -/
theorem numGet_intToChars (i : Int) (tail : List Char) (hlo : INT_MIN ≤ i) (hhi : i ≤ INT_MAX)
    (ht : ∀ x, tail.head? = some x → isdigit x = false) :
    ifstream.numGet (intToChars i ++ tail) =
      { consumed := (intToChars i).length, hitEnd := tail.isEmpty, failed := false, value := i } := by
  have hn := natToChars_facts i.natAbs
  obtain ⟨d, t, hdt⟩ := List.exists_cons_of_ne_nil hn.1
  have hd : isdigit d = true := hn.2.1 d (by rw [hdt]; exact List.mem_cons_self _ _)
  have hdm : d ≠ '-' := by
    intro h; rw [h] at hd; exact absurd hd (by decide)
  have hdp : d ≠ '+' := by
    intro h; rw [h] at hd; exact absurd hd (by decide)
  have hsp := span_append isdigit (natToChars i.natAbs) tail hn.2.1 ht
  have hne : (natToChars i.natAbs).isEmpty = false := by simp [hdt]
  unfold intToChars
  by_cases hneg : i < 0
  · rw [if_pos hneg]
    have habs : |i| = -i := abs_of_neg hneg
    have h1 : ¬ (INT_MAX < i) := by omega
    have h2 : ¬ (i < INT_MIN) := by omega
    simp [ifstream.numGet, hsp.1, hsp.2, hn.2.2, hne, habs, h1, h2, hlo, hhi, Nat.add_comm]
  · rw [if_neg hneg]
    have habs : |i| = i := abs_of_nonneg (by omega)
    have h1 : ¬ (INT_MAX < i) := by omega
    have h2 : ¬ (i < INT_MIN) := by omega
    have hh : (natToChars i.natAbs ++ tail).head? = some d := by simp [hdt]
    simp [ifstream.numGet, hh, hdm, hdp, hsp.1, hsp.2, hn.2.2, hne, habs, h1, h2, hlo, hhi]

/-! ## Reading one record off a well-formed line -/

theorem isToken_iff (t : List Char) :
    isToken t = true ↔ t ≠ [] ∧ ∀ c ∈ t, isspace c = false := by
  simp [isToken]

theorem isGap_iff (g : List Char) :
    isGap g = true ↔ g ≠ [] ∧ ∀ c ∈ g, isspace c = true := by
  simp [isGap]

theorem head?_append_of_ne_nil {α : Type} (a b : List α) (h : a ≠ []) :
    (a ++ b).head? = a.head? := by
  cases a with
  | nil => exact absurd rfl h
  | cons x t => rfl

theorem head?_mem {α : Type} (a : List α) (x : α) (h : a.head? = some x) : x ∈ a := by
  cases a with
  | nil => simp at h
  | cons y t =>
    simp only [List.head?_cons, Option.some.injEq] at h
    rw [h]
    exact List.mem_cons_self _ _

namespace ifstream

/-- On a good stream whose cursor is before white space, a token and then
nothing or white space, `>>` into a string extracts the token. -/
theorem extractString_token (s : ifstream) (v ws tok tail : List Char) (hg : s.good = true)
    (hr : s.rest = ws ++ (tok ++ tail)) (hws : ∀ c ∈ ws, isspace c = true)
    (htok : isToken tok = true) (ht : ∀ x, tail.head? = some x → isspace x = true) :
    ∃ s', s.extractString v = (s', tok) ∧ s'.data = s.data ∧ s'.rest = tail ∧
      s'.failbit = false ∧ s'.eofbit = tail.isEmpty := by
  obtain ⟨hne, hall⟩ := (isToken_iff tok).mp htok
  have hgood := (good_iff s).mp hg
  have h1 := span_append isspace ws (tok ++ tail) hws (by
    intro x hx
    rw [head?_append_of_ne_nil _ _ hne] at hx
    exact hall x (head?_mem _ _ hx))
  have h2 := span_append (fun c => !isspace c) tok tail (by
    intro x hx
    simp [hall x hx]) (by
    intro x hx
    simp [ht x hx])
  have hne' : (tok ++ tail).isEmpty = false := by
    cases tok with
    | nil => exact absurd rfl hne
    | cons a t => rfl
  have hte : tok.isEmpty = false := by
    cases tok with
    | nil => exact absurd rfl hne
    | cons a t => rfl
  have hrest1 : (s.advance ws.length).rest = tok ++ tail := by
    rw [advance_rest, hr, List.drop_left]
  refine ⟨((s.advance ws.length).advance tok.length).setstate tail.isEmpty false, ?_, rfl, ?_, ?_, ?_⟩
  · unfold extractString
    rw [sentry_skipws s hg, hr, h1.1, h1.2, hne']
    simp only [Bool.false_eq_true, if_false]
    rw [hrest1, h2.1, h2.2, hte]
  · rw [setstate_rest, advance_rest, hrest1, List.drop_left]
  · simp [hgood.2]
  · simp [hgood.1]

/-- On a good stream whose cursor is before white space, a printed `int` and
then nothing or something that is not a digit, `>>` into an `int` extracts
the value. -/
theorem extractInt_numeral (s : ifstream) (v i : Int) (ws tail : List Char) (hg : s.good = true)
    (hr : s.rest = ws ++ (intToChars i ++ tail)) (hws : ∀ c ∈ ws, isspace c = true)
    (hi : fitsInt i = true) (ht : ∀ x, tail.head? = some x → isdigit x = false) :
    ∃ s', s.extractInt v = (s', i) ∧ s'.data = s.data ∧ s'.rest = tail ∧
      s'.failbit = false ∧ s'.eofbit = tail.isEmpty := by
  obtain ⟨hne, hall⟩ := intToChars_token i
  have hgood := (good_iff s).mp hg
  simp only [fitsInt, Bool.and_eq_true, decide_eq_true_eq] at hi
  have h1 := span_append isspace ws (intToChars i ++ tail) hws (by
    intro x hx
    rw [head?_append_of_ne_nil _ _ hne] at hx
    exact hall x (head?_mem _ _ hx))
  have hne' : (intToChars i ++ tail).isEmpty = false := by
    cases hc : intToChars i with
    | nil => exact absurd hc hne
    | cons a t => rfl
  have hrest1 : (s.advance ws.length).rest = intToChars i ++ tail := by
    rw [advance_rest, hr, List.drop_left]
  have hnum := numGet_intToChars i tail hi.1 hi.2 ht
  refine ⟨((s.advance ws.length).advance (intToChars i).length).setstate tail.isEmpty false,
    ?_, rfl, ?_, ?_, ?_⟩
  · unfold extractInt
    rw [sentry_skipws s hg, hr, h1.1, h1.2, hne']
    simp only [Bool.false_eq_true, if_false]
    rw [hrest1, hnum]
  · rw [setstate_rest, advance_rest, hrest1, List.drop_left]
  · simp [hgood.2]
  · simp [hgood.1]

end ifstream

namespace FileInput

open ifstream

theorem good_of_flags (s : ifstream) (hf : s.failbit = false) (he : s.eofbit = false) :
    s.good = true := by
  simp [good, hf, he]

theorem gap_head (g rest : List Char) (hg : isGap g = true) :
    (g ++ rest).isEmpty = false ∧ ∀ x, (g ++ rest).head? = some x → isspace x = true := by
  obtain ⟨hne, hall⟩ := (isGap_iff g).mp hg
  refine ⟨?_, ?_⟩
  · cases g with
    | nil => exact absurd rfl hne
    | cons a t => rfl
  · intro x hx
    rw [head?_append_of_ne_nil _ _ hne] at hx
    exact hall x (head?_mem _ _ hx)

/-- One evaluation of the four chained extractions on a good stream whose
cursor is before white space, a well-formed line and then nothing or white
space: the record of the line is read, the cursor is after the line, and
`eofbit` tells whether the file ended there. -/
theorem readPerson_entry (s : ifstream) (p : person) (e : Entry) (ws tail : List Char)
    (hg : s.good = true) (he : e.wellFormed = true) (hws : ∀ c ∈ ws, isspace c = true)
    (hr : s.rest = ws ++ (e.text ++ tail))
    (ht : ∀ x, tail.head? = some x → isspace x = true) :
    ∃ s', readPerson s p = (s', e.record) ∧ s'.data = s.data ∧ s'.rest = tail ∧
      s'.failbit = false ∧ s'.eofbit = tail.isEmpty := by
  simp only [Entry.wellFormed, person.wellFormed, Bool.and_eq_true] at he
  obtain ⟨⟨⟨⟨⟨⟨hf, hl⟩, hj⟩, ha⟩, g1⟩, g2⟩, g3⟩ := he
  have hr1 : s.rest = ws ++ (e.record.first_name ++ (e.gap1 ++ (e.record.last_name ++ (e.gap2 ++
      (e.record.job ++ (e.gap3 ++ (intToChars e.record.age ++ tail))))))) := by
    rw [hr]
    simp [Entry.text]
  obtain ⟨s1, h1, d1, r1, f1, e1⟩ := extractString_token s p.first_name ws e.record.first_name _
    hg hr1 hws hf (gap_head _ _ g1).2
  rw [(gap_head _ _ g1).1] at e1
  obtain ⟨s2, h2, d2, r2, f2, e2⟩ := extractString_token s1 p.last_name e.gap1 e.record.last_name _
    (good_of_flags s1 f1 e1) r1 ((isGap_iff _).mp g1).2 hl (gap_head _ _ g2).2
  rw [(gap_head _ _ g2).1] at e2
  obtain ⟨s3, h3, d3, r3, f3, e3⟩ := extractString_token s2 p.job e.gap2 e.record.job _
    (good_of_flags s2 f2 e2) r2 ((isGap_iff _).mp g2).2 hj (gap_head _ _ g3).2
  rw [(gap_head _ _ g3).1] at e3
  obtain ⟨s4, h4, d4, r4, f4, e4⟩ := extractInt_numeral s3 p.age e.record.age e.gap3 tail
    (good_of_flags s3 f3 e3) r3 ((isGap_iff _).mp g3).2 ha
    (fun x hx => isspace_not_digit x (ht x hx))
  refine ⟨s4, ?_, by rw [d4, d3, d2, d1], r4, f4, e4⟩
  simp only [readPerson, h1, h2, h3, h4]

end FileInput

/-! ## The record loop on well-formed files -/

namespace FileInput

open ifstream

/-- A record read that ends without `failbit` had none of its extractions
fail. -/
theorem readPerson_failbit (s : ifstream) (p : person)
    (h : (s.extractString p.first_name).1.failbit = true ∨
      ((s.extractString p.first_name).1.extractString p.last_name).1.failbit = true ∨
      (((s.extractString p.first_name).1.extractString p.last_name).1.extractString
        p.job).1.failbit = true ∨
      (readPerson s p).1.failbit = true) :
    (readPerson s p).1.failbit = true := by
  by_contra hc
  have hf : (readPerson s p).1.failbit = false := by simpa using hc
  simp only [readPerson] at hf h
  generalize s.extractString p.first_name = r1 at *
  have h2 := extractString_facts r1.1 p.last_name
  generalize r1.1.extractString p.last_name = r2 at *
  have h3 := extractString_facts r2.1 p.job
  generalize r2.1.extractString p.job = r3 at *
  have h4 := extractInt_facts r3.1 p.age
  generalize r3.1.extractInt p.age = r4 at *
  have f3 := flag_false_of_imp h4.2.2 hf
  have f2 := flag_false_of_imp h3.2.2.1 f3
  have f1 := flag_false_of_imp h2.2.2.1 f2
  rw [f1, f2, f3, hf] at h
  simp at h

/-- On a good stream with nothing but white space left, `>>` into a string
fails. -/
theorem extractString_blank (s : ifstream) (v : List Char) (hg : s.good = true)
    (hb : ∀ c ∈ s.rest, isspace c = true) : (s.extractString v).1.failbit = true := by
  have : s.rest.dropWhile isspace = [] := List.dropWhile_eq_nil_iff.mpr hb
  unfold extractString
  rw [sentry_skipws s hg, this]
  simp

theorem sepAfter_cases (tl : List Entry) (nl : Bool) :
    ∃ sep : List Char, (∀ e : Entry, fileOf (e :: tl) nl = e.text ++ (sep ++ fileOf tl nl)) ∧
      (∀ c ∈ sep, isspace c = true) ∧
      (∀ x, (sep ++ fileOf tl nl).head? = some x → isspace x = true) := by
  cases tl with
  | nil =>
    cases nl
    · exact ⟨[], fun e => by simp [fileOf], by simp, by simp [fileOf]⟩
    · refine ⟨['\n'], fun e => by simp [fileOf], ?_, ?_⟩
      · intro c hc
        rw [List.mem_singleton] at hc
        rw [hc]; decide
      · intro x hx
        simp only [fileOf, List.append_nil, List.head?_cons, Option.some.injEq] at hx
        rw [← hx]; decide
  | cons e' es =>
    refine ⟨['\n'], fun e => by simp [fileOf], ?_, ?_⟩
    · intro c hc
      rw [List.mem_singleton] at hc
      rw [hc]; decide
    · intro x hx
      simp only [List.singleton_append, List.head?_cons, Option.some.injEq] at hx
      rw [← hx]; decide

theorem text_ne_nil (e : Entry) (he : e.wellFormed = true) : e.text ≠ [] := by
  simp only [Entry.wellFormed, person.wellFormed, Bool.and_eq_true] at he
  have := ((isToken_iff _).mp he.1.1.1.1.1.1).1
  simp [Entry.text, this]

/-- The record loop, entered with the cursor before white space and the
lines of a well-formed file, emits the records of those lines and ends. -/
theorem recordScan_entries (nl : Bool) : ∀ (es : List Entry), (∀ e ∈ es, e.wellFormed = true) →
    ∀ (fuel : Nat) (s : ifstream) (p : person) (ws : List Char),
      s.failbit = false → (s.eofbit = true → s.rest = []) → (∀ c ∈ ws, isspace c = true) →
      s.rest = ws ++ fileOf es nl → s.rest.length < fuel →
      ∃ sf, recordScan fuel s p = some (es.map Entry.record, sf) := by
  intro es
  induction es with
  | nil =>
    intro _ fuel s p ws hf he hws hr hlen
    obtain ⟨k, rfl⟩ : ∃ k, fuel = k + 1 := ⟨fuel - 1, by omega⟩
    simp only [recordScan, List.map_nil]
    by_cases hE : s.eof = true
    · rw [if_pos hE]
      exact ⟨_, rfl⟩
    · rw [if_neg hE]
      have hg : s.good = true := good_of_flags s hf (by simpa [eof] using hE)
      have hb : ∀ c ∈ s.rest, isspace c = true := by
        rw [hr]
        simpa [fileOf] using hws
      have := readPerson_failbit s p (Or.inl (extractString_blank s _ hg hb))
      simp only [fail, this, if_true]
      exact ⟨_, rfl⟩
  | cons e tl ih =>
    intro hwf fuel s p ws hf he hws hr hlen
    obtain ⟨k, rfl⟩ : ∃ k, fuel = k + 1 := ⟨fuel - 1, by omega⟩
    have hwe := hwf e (List.mem_cons_self _ _)
    obtain ⟨sep, hsep, hsepws, hhead⟩ := sepAfter_cases tl nl
    rw [hsep e] at hr
    have htext := text_ne_nil e hwe
    have hne : s.rest ≠ [] := by
      rw [hr]
      simp [htext]
    have hE : s.eofbit = false := by
      cases h : s.eofbit
      · rfl
      · exact absurd (he h) hne
    obtain ⟨s', h1, _, r1, f1, e1⟩ := readPerson_entry s p e ws (sep ++ fileOf tl nl)
      (good_of_flags s hf hE) hwe hws hr hhead
    have hlen' : s'.rest.length < k := by
      have : 0 < e.text.length := List.length_pos.mpr htext
      rw [r1]
      rw [hr] at hlen
      simp only [List.length_append] at hlen ⊢
      omega
    obtain ⟨sf, hsf⟩ := ih (fun x hx => hwf x (List.mem_cons_of_mem _ hx)) k s' e.record sep f1
      (by
        intro h
        rw [e1] at h
        rw [r1]
        simpa using h)
      hsepws r1 hlen'
    refine ⟨sf, ?_⟩
    simp only [recordScan, eof, hE, Bool.false_eq_true, if_false, h1, fail, f1, hsf,
      Option.map_some', List.map_cons]

end FileInput

namespace FileOutput

/-- The file the Writer's lines make up is the well-formed file of the same
records with single spaces and a final newline. -/
theorem serialize_flatten (rs : List person) :
    (rs.map serialize).flatten = fileOf (rs.map Entry.plain) true := by
  induction rs with
  | nil => rfl
  | cons r tl ih =>
    cases tl with
    | nil => simp [fileOf, serialize, Entry.text, Entry.plain]
    | cons r' tl' =>
      rw [List.map_cons, List.flatten_cons, ih]
      simp [fileOf, serialize, Entry.text, Entry.plain]

end FileOutput

/-- C2. The record loop on well-formed input: for every list of lines whose
records have non-empty, white-space-free text fields and an age that fits an
`int`, with white space between the four fields, and for the file made of
these lines with or without a newline after the last one (the Writer's own
lines are the case of single spaces, see `serialize_flatten`), the loop
started at offset 0 with the flags clear and a step budget above the file
length emits exactly the records of the lines, in order, and ends. -/
theorem recordScan_wellFormed_file (es : List Entry) (finalNewline : Bool) (fuel : Nat)
    (p0 : person) (hwf : ∀ e ∈ es, e.wellFormed = true)
    (hfuel : (fileOf es finalNewline).length < fuel) :
    ∃ sf, FileInput.recordScan fuel (ifstream.opened (fileOf es finalNewline)) p0
      = some (es.map Entry.record, sf) :=
  FileInput.recordScan_entries finalNewline es hwf fuel (ifstream.opened (fileOf es finalNewline))
    p0 [] rfl (fun h => Bool.noConfusion h) (fun _ h => absurd h (List.not_mem_nil _)) rfl hfuel

/-- The file `Luke Skywalker Jedi 19` yields the single record of Luke. -/
theorem recordScan_wellFormed_file_witness :
    ∃ sf, FileInput.recordScan 23 (ifstream.opened "Luke Skywalker Jedi 19".toList)
        { first_name := [], last_name := [], job := [], age := 0 }
      = some ([{ first_name := "Luke".toList, last_name := "Skywalker".toList,
                 job := "Jedi".toList, age := 19 }], sf) :=
  recordScan_wellFormed_file
    [Entry.plain { first_name := "Luke".toList, last_name := "Skywalker".toList,
                   job := "Jedi".toList, age := 19 }]
    false 23 { first_name := [], last_name := [], job := [], age := 0 }
    (by decide) (by decide)

/-- C1 (as stated, refuted). A record whose job holds a space does not come
back: the line the Writer produces for `Darth Vader "Imperial Lord" 40` makes
the Reader's record read fail, as `Lord` is read where the age is expected. -/
theorem roundtrip_fails_with_space :
    FileInput.parseLine
        (FileOutput.serialize { first_name := "Darth".toList, last_name := "Vader".toList,
                                job := "Imperial Lord".toList, age := 40 })
        { first_name := [], last_name := [], job := [], age := 0 }
      = none := by
  decide

/-- C1 (amended). Round trip: for every record whose three text fields are
non-empty and free of white space and whose age fits an `int`, the line the
Writer serializes is read back by the Reader's record read, which succeeds
and yields the record, equal in all four fields. -/
theorem roundtrip_wellFormed (r p0 : person) (h : r.wellFormed = true) :
    FileInput.parseLine (FileOutput.serialize r) p0 = some r := by
  have hwf : (Entry.plain r).wellFormed = true := by
    simp only [Entry.wellFormed, Entry.plain, h, Bool.true_and, Bool.and_eq_true]
    exact ⟨⟨by decide, by decide⟩, by decide⟩
  have hr : (ifstream.opened (FileOutput.serialize r)).rest
      = [] ++ ((Entry.plain r).text ++ ['\n']) := by
    simp [ifstream.opened, ifstream.rest, FileOutput.serialize, Entry.text, Entry.plain]
  obtain ⟨s', h1, _, _, f1, _⟩ := FileInput.readPerson_entry
    (ifstream.opened (FileOutput.serialize r)) p0 (Entry.plain r) [] ['\n'] rfl hwf
    (fun _ hc => absurd hc (List.not_mem_nil _)) hr
    (by
      intro x hx
      simp only [List.head?_cons, Option.some.injEq] at hx
      rw [← hx]; decide)
  simp only [FileInput.parseLine, h1, ifstream.fail, f1, Bool.false_eq_true, if_false]
  rfl

/-- The Writer's own record comes back. -/
theorem roundtrip_wellFormed_witness :
    FileInput.parseLine
        (FileOutput.serialize { first_name := "Darth".toList, last_name := "Vader".toList,
                                job := "Imperial-Lord".toList, age := 40 })
        { first_name := [], last_name := [], job := [], age := 0 }
      = some { first_name := "Darth".toList, last_name := "Vader".toList,
               job := "Imperial-Lord".toList, age := 40 } :=
  roundtrip_wellFormed _ _ (by decide)

/-- C6 (as stated, refuted). On the file `Luke Skywalker Jedi 19` the single
line read does not yield the whole line and the single character read does
not yield `L`: the line read continues after the failed integer read and
yields `Skywalker Jedi 19`, and the character read fails at the end of the
file. -/
theorem single_reads_not_from_start :
    (FileInput.singleReads (ifstream.opened "Luke Skywalker Jedi 19".toList) 0 'c').lineFailed
        = false ∧
      (FileInput.singleReads (ifstream.opened "Luke Skywalker Jedi 19".toList) 0 'c').line
        = "Skywalker Jedi 19".toList ∧
      (FileInput.singleReads (ifstream.opened "Luke Skywalker Jedi 19".toList) 0 'c').line
        ≠ "Luke Skywalker Jedi 19".toList ∧
      (FileInput.singleReads (ifstream.opened "Luke Skywalker Jedi 19".toList) 0 'c').cFailed
        = true := by
  decide

/-- C6 (amended). Only the three loops start from byte offset 0: in every run
on a file that opens, each loop emits what it emits on a freshly opened
stream over the file.  The single reads continue from where the read before
stopped, the flags being cleared once after the integer read: on the one-line
file `Luke Skywalker Jedi 19`, with or without a final newline, the token read
yields `Luke`, the integer read fails, the line read yields
`Skywalker Jedi 19` and the character read fails and leaves `c` as it was. -/
theorem single_reads_continue (n0 : Int) (c0 : Char) (age0 : Int) (finalNewline : Bool)
    (content : List Char) :
    (∃ chars lines people,
      (FileInput.charScan (content.length + 1) (ifstream.opened content) c0).map Prod.fst
        = some chars ∧
      (FileInput.lineScan (content.length + 1) (ifstream.opened content) []).map Prod.fst
        = some lines ∧
      (FileInput.recordScan (content.length + 1) (ifstream.opened content)
          { first_name := [], last_name := [], job := [], age := age0 }).map Prod.fst
        = some people ∧
      (FileInput.main (some content) n0 c0 age0).map Outcome.stdout = some
        (FileInput.stepsText (FileInput.singleReads (ifstream.opened content) n0 c0)
          ++ "File contents, read a character at a time:".toList
          ++ (chars.map (fun ch => FileInput.quoted [ch])).flatten ++ "\n\n".toList
          ++ "File contents, read a line at a time:".toList
          ++ (lines.map FileInput.quoted).flatten ++ "\n\n".toList
          ++ "File contents, read a person at a time:\n".toList
          ++ (people.map FileInput.personLine).flatten)) ∧
    FileInput.stepsText (FileInput.singleReads
        (ifstream.opened
          ("Luke Skywalker Jedi 19".toList ++ if finalNewline then ['\n'] else []))
        n0 c0)
      = ("Read this string: Luke\nFailed to read an int.\n"
          ++ "Read this line: Skywalker Jedi 19\nFailed to read a char.\n").toList ∧
    (FileInput.singleReads
        (ifstream.opened
          ("Luke Skywalker Jedi 19".toList ++ if finalNewline then ['\n'] else []))
        n0 c0).line = "Skywalker Jedi 19".toList ∧
    (FileInput.singleReads
        (ifstream.opened
          ("Luke Skywalker Jedi 19".toList ++ if finalNewline then ['\n'] else []))
        n0 c0).c = c0 := by
  refine ⟨?_, ?_, ?_, ?_⟩
  · obtain ⟨chars, lines, people, h1, h2, h3, h4⟩ :=
      FileInput.main_loops_fresh content n0 c0 age0
    exact ⟨chars, lines, people, h1, h2, h3, by rw [h4]; rfl⟩
  · cases finalNewline <;> rfl
  · cases finalNewline <;> rfl
  · cases finalNewline <;> rfl

/-! ## Tokens, and the record loop before a malformed line -/

theorem tokens_nil : tokens [] = [] := by decide

theorem tokens_space_cons (c : Char) (l : List Char) (hc : isspace c = true) :
    tokens (c :: l) = tokens l := by
  simp [tokens, List.splitOnP_cons, hc]

theorem tokens_blank_append (ws l : List Char) (hws : ∀ c ∈ ws, isspace c = true) :
    tokens (ws ++ l) = tokens l := by
  induction ws with
  | nil => rfl
  | cons c t ih =>
    rw [List.cons_append, tokens_space_cons _ _ (hws c (List.mem_cons_self _ _))]
    exact ih (fun x hx => hws x (List.mem_cons_of_mem _ hx))

theorem tokens_token_append (t r : List Char) (ht : isToken t = true)
    (hr : ∀ x, r.head? = some x → isspace x = true) : tokens (t ++ r) = t :: tokens r := by
  obtain ⟨hne, hall⟩ := (isToken_iff t).mp ht
  have hte : t.isEmpty = false := by
    cases t with
    | nil => exact absurd rfl hne
    | cons a t => rfl
  cases r with
  | nil =>
    have hs : t.splitOnP isspace = [t] :=
      List.splitOnP_eq_single _ _ (fun x hx => by simp [hall x hx])
    simp [tokens, hs, hte]
  | cons c r' =>
    have hc := hr c rfl
    have hs : (t ++ c :: r').splitOnP isspace = t :: r'.splitOnP isspace :=
      List.splitOnP_first _ _ (fun x hx => by simp [hall x hx]) c hc r'
    rw [tokens_space_cons c r' hc]
    simp [tokens, hs, hte]

/-- Any text is white space followed either by nothing, in which case it has
no token, or by its first token and a remainder that is empty or starts with
white space and holds the other tokens. -/
theorem tokens_decompose (l : List Char) :
    ∃ ws : List Char, (∀ c ∈ ws, isspace c = true) ∧
      ((l = ws ∧ tokens l = []) ∨
        ∃ t r, l = ws ++ (t ++ r) ∧ isToken t = true ∧
          (∀ x, r.head? = some x → isspace x = true) ∧ tokens l = t :: tokens r) := by
  refine ⟨l.takeWhile isspace, fun c hc => List.mem_takeWhile_imp hc, ?_⟩
  have happ := List.takeWhile_append_dropWhile isspace l
  by_cases hd : l.dropWhile isspace = []
  · left
    rw [hd, List.append_nil] at happ
    refine ⟨happ.symm, ?_⟩
    have := tokens_blank_append l [] (List.dropWhile_eq_nil_iff.mp hd)
    rw [List.append_nil] at this
    rw [this, tokens_nil]
  · right
    have ht : isToken ((l.dropWhile isspace).takeWhile (fun c => !isspace c)) = true := by
      rw [isToken_iff]
      refine ⟨?_, ?_⟩
      · obtain ⟨a, t, hat⟩ := List.exists_cons_of_ne_nil hd
        have ha := List.head_dropWhile_not isspace l hd
        simp only [hat, List.head_cons] at ha
        simp [hat, List.takeWhile_cons, ha]
      · intro c hc
        have := List.mem_takeWhile_imp hc
        simpa using this
    have hr : ∀ x, ((l.dropWhile isspace).dropWhile (fun c => !isspace c)).head? = some x →
        isspace x = true := by
      intro x hx
      have := List.head?_dropWhile_not (fun c => !isspace c) (l.dropWhile isspace)
      rw [hx] at this
      simpa using this
    have happ2 := List.takeWhile_append_dropWhile (fun c => !isspace c) (l.dropWhile isspace)
    refine ⟨_, _, ?_, ht, hr, ?_⟩
    · rw [happ2, happ]
    · conv_lhs => rw [← happ, ← happ2]
      rw [tokens_blank_append _ _ (fun c hc => List.mem_takeWhile_imp hc)]
      exact tokens_token_append _ _ ht hr

theorem takeWhile_append_stop {α : Type} (q : α → Bool) (a r : List α)
    (hr : ∀ x, r.head? = some x → q x = false) :
    (a ++ r).takeWhile q = a.takeWhile q := by
  induction a with
  | nil =>
    cases r with
    | nil => rfl
    | cons x t => simp [List.takeWhile_cons, hr x rfl]
  | cons x t ih =>
    by_cases hx : q x = true
    · simp [List.takeWhile_cons, hx, ih]
    · simp [List.takeWhile_cons, hx]

/-- On a token followed by nothing or white space, `num_get` fails exactly
when the token does not begin with an integer that fits an `int`. -/
theorem numGet_failed_token (t r : List Char) (ht : isToken t = true)
    (hr : ∀ x, r.head? = some x → isspace x = true) :
    (ifstream.numGet (t ++ r)).failed = !startsWithInt t := by
  obtain ⟨hne, _⟩ := (isToken_iff t).mp ht
  obtain ⟨a, t', rfl⟩ := List.exists_cons_of_ne_nil hne
  have hstop : ∀ x, r.head? = some x → isdigit x = false :=
    fun x hx => isspace_not_digit x (hr x hx)
  have h1 := takeWhile_append_stop isdigit t' r hstop
  have h2 := takeWhile_append_stop isdigit (a :: t') r hstop
  simp only [List.cons_append] at h2
  by_cases hm : a = '-'
  · subst hm
    simp only [ifstream.numGet, startsWithInt, List.cons_append, List.head?_cons, true_or,
      if_true, List.drop_succ_cons, List.drop_zero, List.tail_cons, h1]
    cases hd : (List.takeWhile isdigit t').isEmpty
    · simp only [Bool.false_or, Bool.not_false, Bool.true_and, Bool.not_eq_true']
      simp only [INT_MAX, INT_MIN]
      by_cases hv : digitsVal (List.takeWhile isdigit t') ≤ 2147483648
      · have e1 : ¬ ((2147483647 : Int) < -(digitsVal (List.takeWhile isdigit t') : Int)) := by
          omega
        have e2 : ¬ (-(digitsVal (List.takeWhile isdigit t') : Int) < -2147483648) := by omega
        simp [hv, e1, e2]
      · have e2 : -(digitsVal (List.takeWhile isdigit t') : Int) < -2147483648 := by omega
        simp [hv, e2]
    · simp
  · by_cases hp : a = '+'
    · subst hp
      have hpm : ¬ ('+' = '-') := by decide
      simp only [ifstream.numGet, startsWithInt, List.cons_append, List.head?_cons, or_true,
        if_true, List.drop_succ_cons, List.drop_zero, List.tail_cons, h1, Option.some.injEq,
        hpm, if_false]
      cases hd : (List.takeWhile isdigit t').isEmpty
      · simp only [Bool.false_or, Bool.not_false, Bool.true_and]
        simp only [INT_MAX, INT_MIN]
        by_cases hv : digitsVal (List.takeWhile isdigit t') ≤ 2147483647
        · have e1 : ¬ ((2147483647 : Int) < (digitsVal (List.takeWhile isdigit t') : Int)) := by
            omega
          have e2 : ¬ ((digitsVal (List.takeWhile isdigit t') : Int) < -2147483648) := by omega
          simp [hv, e1, e2]
        · have e1 : (2147483647 : Int) < (digitsVal (List.takeWhile isdigit t') : Int) := by
            omega
          simp [hv, e1]
      · simp
    · simp only [ifstream.numGet, startsWithInt, List.cons_append, List.head?_cons,
        Option.some.injEq, hm, hp, or_self, if_false, List.drop_zero, h2]
      cases hd : (List.takeWhile isdigit (a :: t')).isEmpty
      · simp only [Bool.false_or, Bool.not_false, Bool.true_and]
        simp only [INT_MAX, INT_MIN]
        by_cases hv : digitsVal (List.takeWhile isdigit (a :: t')) ≤ 2147483647
        · have e1 : ¬ ((2147483647 : Int)
              < (digitsVal (List.takeWhile isdigit (a :: t')) : Int)) := by omega
          have e2 : ¬ ((digitsVal (List.takeWhile isdigit (a :: t')) : Int) < -2147483648) := by
            omega
          simp [hv, e1, e2]
        · have e1 : (2147483647 : Int)
              < (digitsVal (List.takeWhile isdigit (a :: t')) : Int) := by omega
          simp [hv, e1]
      · simp

namespace ifstream

/-- A stream on which nothing failed and whose `eofbit`, if set, comes with
an exhausted file is either good or has nothing left. -/
theorem good_or_exhausted (s : ifstream) (hf : s.failbit = false)
    (he : s.eofbit = true → s.rest = []) : s.good = true ∨ (s.good = false ∧ s.rest = []) := by
  cases h : s.eofbit
  · left; simp [good, hf, h]
  · right; exact ⟨by simp [good, h], he h⟩

theorem extractString_not_good (s : ifstream) (v : List Char) (hg : s.good = false) :
    (s.extractString v).1.failbit = true := by
  unfold extractString
  rw [sentry_not_good s false hg]
  simp

theorem extractInt_not_good (s : ifstream) (v : Int) (hg : s.good = false) :
    (s.extractInt v).1.failbit = true := by
  unfold extractInt
  rw [sentry_not_good s false hg]
  simp

/-- `>>` into a string against the tokens of what is left: without a token
it fails, otherwise it extracts the first token and leaves the others. -/
theorem extractString_tokens (s : ifstream) (v : List Char) (hf : s.failbit = false)
    (he : s.eofbit = true → s.rest = []) :
    (tokens s.rest = [] → (s.extractString v).1.failbit = true) ∧
      (∀ t ts, tokens s.rest = t :: ts →
        ∃ s', s.extractString v = (s', t) ∧ s'.failbit = false ∧
          (s'.eofbit = true → s'.rest = []) ∧ tokens s'.rest = ts) := by
  rcases good_or_exhausted s hf he with hg | ⟨hg, hnil⟩
  · obtain ⟨ws, hws, hcase⟩ := tokens_decompose s.rest
    rcases hcase with ⟨hl, htok⟩ | ⟨t, r, hl, ht, hr, htok⟩
    · refine ⟨fun _ => ?_, ?_⟩
      · unfold extractString
        have : s.rest.dropWhile isspace = [] := by
          rw [hl]
          exact List.dropWhile_eq_nil_iff.mpr hws
        rw [sentry_skipws s hg, this]
        simp
      · intro t ts h
        rw [htok] at h
        exact absurd h (by simp)
    · refine ⟨fun h => ?_, ?_⟩
      · rw [htok] at h
        exact absurd h (by simp)
      · intro t' ts h
        rw [htok] at h
        simp only [List.cons.injEq] at h
        obtain ⟨s', h1, _, r1, f1, e1⟩ := extractString_token s v ws t r hg hl hws ht hr
        refine ⟨s', by rw [h1, h.1], f1, ?_, by rw [r1, h.2]⟩
        intro hE
        rw [e1] at hE
        rw [r1]
        simpa using hE
  · refine ⟨fun _ => extractString_not_good s v hg, ?_⟩
    intro t ts h
    rw [hnil, tokens_nil] at h
    exact absurd h (by simp)

/-- `>>` into an `int` fails when no token is left, and when the next token
does not begin with an integer that fits an `int`. -/
theorem extractInt_tokens (s : ifstream) (v : Int) (hf : s.failbit = false)
    (he : s.eofbit = true → s.rest = []) :
    (tokens s.rest = [] → (s.extractInt v).1.failbit = true) ∧
      (∀ t ts, tokens s.rest = t :: ts → startsWithInt t = false →
        (s.extractInt v).1.failbit = true) := by
  rcases good_or_exhausted s hf he with hg | ⟨hg, hnil⟩
  · obtain ⟨ws, hws, hcase⟩ := tokens_decompose s.rest
    rcases hcase with ⟨hl, htok⟩ | ⟨t, r, hl, ht, hr, htok⟩
    · refine ⟨fun _ => ?_, ?_⟩
      · unfold extractInt
        have : s.rest.dropWhile isspace = [] := by
          rw [hl]
          exact List.dropWhile_eq_nil_iff.mpr hws
        rw [sentry_skipws s hg, this]
        simp
      · intro t ts h
        rw [htok] at h
        exact absurd h (by simp)
    · refine ⟨fun h => ?_, ?_⟩
      · rw [htok] at h
        exact absurd h (by simp)
      · intro t' ts h hbad
        rw [htok] at h
        simp only [List.cons.injEq] at h
        rw [← h.1] at hbad
        obtain ⟨hne, hall⟩ := (isToken_iff t).mp ht
        have h1 := span_append isspace ws (t ++ r) hws (by
          intro x hx
          rw [head?_append_of_ne_nil _ _ hne] at hx
          exact hall x (head?_mem _ _ hx))
        have hne' : (t ++ r).isEmpty = false := by
          cases t with
          | nil => exact absurd rfl hne
          | cons a t => rfl
        have hrest1 : (s.advance ws.length).rest = t ++ r := by
          rw [advance_rest, hl, List.drop_left]
        unfold extractInt
        rw [sentry_skipws s hg, hl, h1.1, h1.2, hne']
        simp only [Bool.false_eq_true, if_false]
        rw [hrest1, numGet_failed_token t r ht hr, hbad]
        simp
  · exact ⟨fun _ => extractInt_not_good s v hg, fun _ _ _ _ => extractInt_not_good s v hg⟩

end ifstream

namespace FileInput

open ifstream

/-- When what is left cannot start with a record, one evaluation of the four
chained extractions ends with `failbit`. -/
theorem readPerson_noRecord (s : ifstream) (p : person) (hf : s.failbit = false)
    (he : s.eofbit = true → s.rest = []) (hbad : noRecordAhead s.rest = true) :
    (readPerson s p).1.failbit = true := by
  apply readPerson_failbit
  have k1 := extractString_tokens s p.first_name hf he
  cases ht1 : tokens s.rest with
  | nil => exact Or.inl (k1.1 ht1)
  | cons t1 ts1 =>
    obtain ⟨s1, h1, f1, e1, r1⟩ := k1.2 t1 ts1 ht1
    rw [h1]
    right
    have k2 := extractString_tokens s1 p.last_name f1 e1
    cases ht2 : ts1 with
    | nil => exact Or.inl (k2.1 (by rw [r1, ht2]))
    | cons t2 ts2 =>
      obtain ⟨s2, h2, f2, e2, r2⟩ := k2.2 t2 ts2 (by rw [r1, ht2])
      rw [h2]
      right
      have k3 := extractString_tokens s2 p.job f2 e2
      cases ht3 : ts2 with
      | nil => exact Or.inl (k3.1 (by rw [r2, ht3]))
      | cons t3 ts3 =>
        obtain ⟨s3, h3, f3, e3, r3⟩ := k3.2 t3 ts3 (by rw [r2, ht3])
        rw [h3]
        right
        have k4 := extractInt_tokens s3 p.age f3 e3
        simp only [readPerson, h1, h2, h3]
        cases ht4 : ts3 with
        | nil => exact k4.1 (by rw [r3, ht4])
        | cons t4 ts4 =>
          have hb : startsWithInt t4 = false := by
            simp only [noRecordAhead, ht1, ht2, ht3, ht4] at hbad
            simpa using hbad
          exact k4.2 t4 ts4 (by rw [r3, ht4]) hb

/-- The record loop, entered with the cursor before white space, well-formed
lines each ended by a newline, and then a text that cannot start with a
record, emits the records of the well-formed lines and ends. -/
theorem recordScan_then_bad (last : List Char) (hbad : noRecordAhead last = true) :
    ∀ (es : List Entry), (∀ e ∈ es, e.wellFormed = true) →
    ∀ (fuel : Nat) (s : ifstream) (p : person) (ws : List Char),
      s.failbit = false → (s.eofbit = true → s.rest = []) → (∀ c ∈ ws, isspace c = true) →
      s.rest = ws ++ ((es.map (fun e => e.text ++ ['\n'])).flatten ++ last) →
      s.rest.length < fuel →
      ∃ sf, recordScan fuel s p = some (es.map Entry.record, sf) := by
  intro es
  induction es with
  | nil =>
    intro _ fuel s p ws hf he hws hr hlen
    obtain ⟨k, rfl⟩ : ∃ k, fuel = k + 1 := ⟨fuel - 1, by omega⟩
    simp only [recordScan, List.map_nil]
    by_cases hE : s.eof = true
    · rw [if_pos hE]
      exact ⟨_, rfl⟩
    · rw [if_neg hE]
      have hb : noRecordAhead s.rest = true := by
        rw [hr]
        simp only [List.map_nil, List.flatten_nil, List.nil_append]
        simp only [noRecordAhead, tokens_blank_append ws last hws]
        exact hbad
      have := readPerson_noRecord s p hf he hb
      simp only [fail, this, if_true]
      exact ⟨_, rfl⟩
  | cons e tl ih =>
    intro hwf fuel s p ws hf he hws hr hlen
    obtain ⟨k, rfl⟩ : ∃ k, fuel = k + 1 := ⟨fuel - 1, by omega⟩
    have hwe := hwf e (List.mem_cons_self _ _)
    have hr' : s.rest = ws ++ (e.text ++ (['\n']
        ++ ((tl.map (fun e => e.text ++ ['\n'])).flatten ++ last))) := by
      rw [hr]
      simp
    have htext := text_ne_nil e hwe
    have hne : s.rest ≠ [] := by
      rw [hr']
      simp [htext]
    have hE : s.eofbit = false := by
      cases h : s.eofbit
      · rfl
      · exact absurd (he h) hne
    obtain ⟨s', h1, _, r1, f1, e1⟩ := readPerson_entry s p e ws _
      (good_of_flags s hf hE) hwe hws hr' (by
        intro x hx
        simp only [List.singleton_append, List.head?_cons, Option.some.injEq] at hx
        rw [← hx]; decide)
    have hlen' : s'.rest.length < k := by
      have : 0 < e.text.length := List.length_pos.mpr htext
      rw [r1]
      rw [hr'] at hlen
      simp only [List.length_append] at hlen ⊢
      omega
    obtain ⟨sf, hsf⟩ := ih (fun x hx => hwf x (List.mem_cons_of_mem _ hx)) k s' e.record ['\n'] f1
      (by
        intro h
        rw [e1] at h
        simp at h)
      (by
        intro c hc
        rw [List.mem_singleton] at hc
        rw [hc]; decide)
      r1 hlen'
    refine ⟨sf, ?_⟩
    simp only [recordScan, eof, hE, Bool.false_eq_true, if_false, h1, fail, f1, hsf,
      Option.map_some', List.map_cons]

end FileInput

/-- C3 (as stated, refuted). A last line with a fifth token is not three text
tokens followed by an integer token, yet the record loop emits a record built
from its first four fields: on `Han Solo Smuggler 32` followed by the line
`Luke Skywalker Jedi 19 Tatooine` it emits both Han and Luke. -/
theorem recordScan_emits_from_long_line :
    wellFormedLine "Han Solo Smuggler 32".toList = true ∧
      wellFormedLine "Luke Skywalker Jedi 19 Tatooine".toList = false ∧
      (FileInput.recordScan 60
          (ifstream.opened "Han Solo Smuggler 32\nLuke Skywalker Jedi 19 Tatooine".toList)
          { first_name := [], last_name := [], job := [], age := 0 }).map Prod.fst
        = some [{ first_name := "Han".toList, last_name := "Solo".toList,
                  job := "Smuggler".toList, age := 32 },
                { first_name := "Luke".toList, last_name := "Skywalker".toList,
                  job := "Jedi".toList, age := 19 }] := by
  decide

/-- C3 (amended). The record loop before a malformed last line: for every
file made of well-formed lines, each ended by a newline, followed by a last
line that has fewer than four tokens or whose fourth token does not begin
with a base-10 integer that fits an `int`, the loop started at offset 0 with
the flags clear and a step budget above the file length emits exactly the
records of the well-formed lines, in order, and ends without emitting
anything for the last line. -/
theorem recordScan_malformed_last (es : List Entry) (last : List Char) (fuel : Nat)
    (p0 : person) (hwf : ∀ e ∈ es, e.wellFormed = true) (hbad : noRecordAhead last = true)
    (hfuel : ((es.map (fun e => e.text ++ ['\n'])).flatten ++ last).length < fuel) :
    ∃ sf, FileInput.recordScan fuel
        (ifstream.opened ((es.map (fun e => e.text ++ ['\n'])).flatten ++ last)) p0
      = some (es.map Entry.record, sf) :=
  FileInput.recordScan_then_bad last hbad es hwf fuel _ p0 [] rfl
    (fun h => Bool.noConfusion h) (fun _ h => absurd h (List.not_mem_nil _)) rfl hfuel

/-- A last line of three tokens: only the record of the first line is
emitted. -/
theorem recordScan_malformed_last_witness :
    ∃ sf, FileInput.recordScan 60
        (ifstream.opened "Han Solo Smuggler 32\nLuke Skywalker Jedi".toList)
        { first_name := [], last_name := [], job := [], age := 0 }
      = some ([{ first_name := "Han".toList, last_name := "Solo".toList,
                 job := "Smuggler".toList, age := 32 }], sf) :=
  recordScan_malformed_last
    [Entry.plain { first_name := "Han".toList, last_name := "Solo".toList,
                   job := "Smuggler".toList, age := 32 }]
    "Luke Skywalker Jedi".toList 60 { first_name := [], last_name := [], job := [], age := 0 }
    (by decide) (by decide) (by decide)

end FileIO
